import Mathlib

/-!
Verification of the CogniCoder CML (CogniCoder Markup Language) core against
its design specification.

Text is modelled as `List Char` (named `Str` below).  Python semantics are
embedded shallowly:

* `code_patcher_cml.py` (`CodePatcherCML`): literal substring search
  (`str.find`), slicing, `str.strip`, `str.replace` — the Patch Engine.
* `enhanced-cml-parser.py` (`CMLParser`): the regex
  `#?\s*\[\[cc\.([\w.]+)(,\s*params\s*=\s*(.+?))?\]\](.*?)#?\s*\[\[/cc\.\1\]\]`
  (with the `python` language profile, whose start marker is `#` and whose
  end marker is empty, the trailing `\s*{end}?` part collapses to a lazy
  `\s*?`, which always matches the empty string) under `re.DOTALL` and
  `finditer` semantics, implemented as a deterministic scanner; the field
  store (a Python `dict`, i.e. an insertion-ordered association list whose
  assignment updates an existing key in place) and its mutating operations;
  and serialization (`generate_cml_field` / `generate_cml_content`).
* `cml_indentation_remover.py`: the line-local normalizer.
* `output_parser.py` (`OutputParser._parse_block`, `_parse_raw_content`):
  the output-envelope extraction.

`print`-based warnings are modelled as an explicit list of `Warn` values
returned next to each result.  `ast.literal_eval` is modelled on the
fragment it is actually fed by this program: dictionaries of single-quoted
string literals (the shape produced by Python's `repr` of a
string-to-string dict), with surrounding whitespace tolerated.
-/

namespace Cml

abbrev Str := List Char

/-- Convert a string literal to the `List Char` representation. -/
def strL (s : String) : Str := s.toList

/-- Python's `\s` character class (`[ \t\n\r\f\v]`, ASCII fragment). -/
def pyIsSpace (c : Char) : Bool :=
  c = ' ' || c = '\t' || c = '\n' || c = '\r' || c = '\x0b' || c = '\x0c'

/-- Python's `\w` character class (ASCII fragment: letters, digits, underscore). -/
def isWordChar (c : Char) : Bool := c.isAlphanum || c = '_'

/-- The character class `[\w.]` used for tag keys. -/
def isWordDot (c : Char) : Bool := isWordChar c || c = '.'

/-- Drop the literal `lit` from the front of `s`; `none` if `s` does not
start with `lit`. -/
def dropLit : Str → Str → Option Str
  | [], s => some s
  | _ :: _, [] => none
  | a :: as, b :: bs => if a = b then dropLit as bs else none

/-- Whether `n` occurs as a contiguous substring of the second argument
(Python's `in` operator on strings). -/
def containsSub (n : Str) : Str → Bool
  | [] => n.isPrefixOf []
  | c :: cs => n.isPrefixOf (c :: cs) || containsSub n cs

/-- Index of the first occurrence of `n` in the second argument
(Python's `str.find`, with `none` standing for `-1`). -/
def findSub (n : Str) : Str → Option Nat
  | [] => if n.isPrefixOf [] then some 0 else none
  | c :: cs => if n.isPrefixOf (c :: cs) then some 0 else (findSub n cs).map (· + 1)

/-- Python's `str.endswith('\n')`. -/
def endsNl (s : Str) : Bool := s.getLast? = some '\n'

/-! ### Patch Engine — `code_patcher_cml.py`, class `CodePatcherCML` -/

/-- The fenced opening tag `f"# [[cc.block.{block_type}]]"`
(`_add_or_replace_block`, `_remove_block`). -/
def blockStartTag (bt : Str) : Str := strL "# [[cc.block." ++ bt ++ strL "]]"

/-- The fenced closing tag `f"# [[/cc.block.{block_type}]]"`. -/
def blockEndTag (bt : Str) : Str := strL "# [[/cc.block." ++ bt ++ strL "]]"

/-- Python's `str.strip('\n')`: remove newlines from both ends. -/
def stripNl (s : Str) : Str :=
  ((s.dropWhile (· = '\n')).reverse.dropWhile (· = '\n')).reverse

/-- The freshly rendered fenced block
`f"{block_start}\n{block_content}\n{block_end}"` with `block_content`
already `strip('\n')`-ed (`_add_or_replace_block`, lines 86–89). -/
def renderBlock (bt bc : Str) : Str :=
  blockStartTag bt ++ '\n' :: (stripNl bc ++ '\n' :: blockEndTag bt)

/-- `CodePatcherCML._add_or_replace_block` (lines 81–103).  Both tag
positions are looked up with `str.find` over the whole text; if both are
found the span `content[start_index : end_index + len(block_end)]` is
replaced, otherwise the fresh block is appended (with one separating
newline when the text is non-empty and does not end in one). -/
def addOrReplaceBlock (content bt bc : Str) : Str :=
  match findSub (blockStartTag bt) content, findSub (blockEndTag bt) content with
  | some si, some ei =>
      content.take si ++ renderBlock bt bc ++ content.drop (ei + (blockEndTag bt).length)
  | _, _ =>
      if content ≠ [] ∧ ¬ endsNl content = true then content ++ '\n' :: renderBlock bt bc
      else content ++ renderBlock bt bc

/-- `CodePatcherCML._remove_block` (lines 106–117). -/
def removeBlock (content bt : Str) : Str :=
  match findSub (blockStartTag bt) content, findSub (blockEndTag bt) content with
  | some si, some ei => content.take si ++ content.drop (ei + (blockEndTag bt).length)
  | _, _ => content

/-- Fuel-driven worker for `replaceAll`; the fuel is always instantiated
with the length of the subject string, which suffices because each
replacement step consumes at least one character. -/
def replAux (old new : Str) : Nat → Str → Str
  | 0, s => s
  | _ + 1, [] => []
  | fu + 1, c :: cs =>
      match dropLit old (c :: cs) with
      | some rest => new ++ replAux old new fu rest
      | none => c :: replAux old new fu cs

/-- Python's `str.replace(old, new)` — every non-overlapping occurrence,
left to right (modelled for non-empty `old`; the program only ever calls
it with `old = "remove."`). -/
def replaceAll (s old new : Str) : Str :=
  if old = [] then s else replAux old new s.length s

/-- One iteration of the loop in `CodePatcherCML._process_patch`
(lines 69–75): `if 'remove' in block_type` — a substring test — selects
removal, with the target key `block_type.replace('remove.', '')`;
otherwise the block is added or replaced. -/
def processOne (content bt bc : Str) : Str :=
  if containsSub (strL "remove") bt then
    removeBlock content (replaceAll bt (strL "remove.") [])
  else addOrReplaceBlock content bt bc

/-- `CodePatcherCML._process_patch` (lines 66–77): fold the patch
operations, in order, over the target text. -/
def processPatch (content : Str) (ops : List (Str × Str)) : Str :=
  ops.foldl (fun acc p => processOne acc p.1 p.2) content

/-! ### Block Extractor and Field Store — `enhanced-cml-parser.py`, class `CMLParser`

The language profile is the parser's default, `python`
(`LanguageConfig('#')`): start marker `#`, empty end marker. -/

/-- A Region: `CMLField(key, content, params)`.  Parameters are modelled
as an insertion-ordered string-to-string mapping (the shape this program
actually uses, e.g. `{'arg1': 'value1'}`). -/
structure CMLField where
  key : Str
  content : Str
  params : List (Str × Str)
deriving DecidableEq, Repr

/-- The non-fatal warning channel (the Python code `print`s these). -/
inductive Warn
  | fieldNotFound (key : Str)
  | fieldExists (key : Str)
  | duplicateKey (key : Str)
  | invalidParams (key : Str) (paramsStr : Str)
deriving DecidableEq, Repr

/-- The literal `[[cc.` that follows the optional marker and whitespace in
an opening tag. -/
def litOpen : Str := strL "[[cc."

/-- The literal `]]`. -/
def litBrk : Str := strL "]]"

/-- The closing-tag literal `[[/cc.` ++ key ++ `]]` (the regex's
backreference `\[\[/cc\.\1\]\]`). -/
def closeLitOf (key : Str) : Str := strL "[[/cc." ++ key ++ strL "]]"

/-- Consume the optional start marker `#?` (greedily, as the regex does;
when consuming `#` leads to failure, not consuming it fails as well
because the following literal starts with `[`). -/
def dropHash : Str → Str
  | [] => []
  | c :: t => if c = '#' then t else c :: t

/-- All splits of the lazy `(.+?)` followed by the literal `d`, in the
order the engine tries them (shortest capture first); each element is
(captured, rest-after-`d`). -/
def lazyUntil1All (d : Str) : Str → List (Str × Str)
  | [] => []
  | c :: cs =>
      (match dropLit d cs with
       | some rest => [([c], rest)]
       | none => [])
        ++ (lazyUntil1All d cs).map (fun pr => (c :: pr.1, pr.2))

/-- All splits of the regex fragment `\s*(.+?)\]\]`, in engine order: the
greedy `\s*` prefers the longest whitespace run and backs off one
character at a time, and for each run the lazy capture grows from
shortest. -/
def spacesThenLazyAll : Str → List (Str × Str)
  | [] => []
  | c :: cs =>
      if pyIsSpace c then spacesThenLazyAll cs ++ lazyUntil1All litBrk (c :: cs)
      else lazyUntil1All litBrk (c :: cs)

/-- All candidate matches of the optional parameter clause
`(,\s*params\s*=\s*(.+?))?` ending at `]]`, in engine order; each
element is (captured params string, rest after `]]`).  Empty when the
clause's mandatory `,` … `params` … `=` scaffolding does not match (those
pieces are rigid: the literal after each `\s*` starts with a
non-whitespace character, so the greedy `\s*` cannot usefully back off). -/
def tryParamsAll : Str → List (Str × Str)
  | ',' :: t =>
      match dropLit (strL "params") (t.dropWhile pyIsSpace) with
      | none => []
      | some t2 =>
          match t2.dropWhile pyIsSpace with
          | '=' :: t3 => spacesThenLazyAll t3
          | _ => []
  | _ => []

/-- Match the closing tag `#?\s*\[\[/cc\.KEY\]\]` at the start of `s`
(the trailing `\s*{end_marker}?` of the regex collapses to a lazy `\s*?`
for the `python` profile and consumes nothing). -/
def tryClose (key s : Str) : Option Str :=
  dropLit (closeLitOf key) ((dropHash s).dropWhile pyIsSpace)

/-- The lazy `(.*?)` before the closing tag: the shortest (possibly empty)
prefix at whose end the closing tag matches; returns (captured content,
rest after the closing tag). -/
def closeSearch (key : Str) : Str → Option (Str × Str)
  | [] => none
  | c :: cs =>
      match tryClose key (c :: cs) with
      | some rest => some ([], rest)
      | none =>
          match closeSearch key cs with
          | some pr => some (c :: pr.1, pr.2)
          | none => none

/-- Run the closing-tag search against each candidate continuation of the
opening tag, in engine order, returning the first success: (params
string, content, rest after the match). -/
def firstClose (key : Str) : List (Option Str × Str) → Option (Option Str × Str × Str)
  | [] => none
  | (ps, rest) :: t =>
      match closeSearch key rest with
      | some pr => some (ps, pr.1, pr.2)
      | none => firstClose key t

/-- Attempt the whole field regex
`#?\s*\[\[cc\.([\w.]+)(,\s*params\s*=\s*(.+?))?\]\](.*?)#?\s*\[\[/cc\.\1\]\]`
at the start of `s`; on success returns (key, optional params string,
content, rest after the match).  The pieces before the params clause are
deterministic: `#?` and the greedy `\s*` cannot usefully backtrack
because the literal `[[cc.` begins with a character that is neither `#`
nor whitespace, and the greedy `([\w.]+)` cannot usefully shorten
because that would leave a word character where `,` or `]` is required.
The engine's remaining backtracking — between the params-clause
candidates and the closing-tag search — is played out by `firstClose`. -/
def matchAt (s : Str) : Option (Str × Option Str × Str × Str) :=
  match dropLit litOpen ((dropHash s).dropWhile pyIsSpace) with
  | none => none
  | some s2 =>
      let key := s2.takeWhile isWordDot
      let s3 := s2.dropWhile isWordDot
      if key = [] then none
      else
        match firstClose key
            ((tryParamsAll s3).map (fun pr => (some pr.1, pr.2))
              ++ (match dropLit litBrk s3 with
                  | some rest => [(none, rest)]
                  | none => [])) with
        | some (ps, content, rest2) => some (key, ps, content, rest2)
        | none => none

/-- `re.finditer` driver: try the pattern at each position left to right,
resuming after each (non-empty) match.  Fuel-driven; the fuel is
instantiated with the text length, which suffices because every match
consumes at least one character. -/
def scanAux : Nat → Str → List (Str × Option Str × Str)
  | 0, _ => []
  | _ + 1, [] => []
  | fu + 1, c :: cs =>
      match matchAt (c :: cs) with
      | some (k, ps, ct, rest) => (k, ps, ct) :: scanAux fu rest
      | none => scanAux fu cs

/-- All matches of the field regex in document order
(`self.field_pattern.finditer(content)`). -/
def scanDoc (s : Str) : List (Str × Option Str × Str) := scanAux s.length s

/-- Parse a single-quoted Python string literal (no escapes — the shape
`repr` produces for the plain strings this program uses). -/
def parseQuoted : Str → Option (Str × Str)
  | c :: t =>
      if c = '\x27' then
        match t.dropWhile (fun d => !(d == '\x27')) with
        | q :: r => if q = '\x27' then some (t.takeWhile (fun d => !(d == '\x27')), r) else none
        | [] => none
      else none
  | [] => none

/-- Entries of a dict literal: `'k': 'v'` separated by commas, ended by
`}`; returns (entries, rest after `}`). -/
def parseEntriesAux : Nat → Str → Option (List (Str × Str) × Str)
  | 0, _ => none
  | fu + 1, s =>
      match parseQuoted s with
      | none => none
      | some (k, r1) =>
          match r1.dropWhile pyIsSpace with
          | [] => none
          | c :: r2 =>
              if c = ':' then
                match parseQuoted (r2.dropWhile pyIsSpace) with
                | none => none
                | some (v, r3) =>
                    match r3.dropWhile pyIsSpace with
                    | [] => none
                    | d :: r4 =>
                        if d = ',' then
                          match parseEntriesAux fu (r4.dropWhile pyIsSpace) with
                          | some pr => some ((k, v) :: pr.1, pr.2)
                          | none => none
                        else if d = '\x7d' then some ([(k, v)], r4)
                        else none
              else none

/-- `ast.literal_eval`, modelled on the fragment this program feeds it:
a dictionary of single-quoted string literals, with surrounding
whitespace tolerated; anything else is a parse failure (`none`). -/
def literalEval (s : Str) : Option (List (Str × Str)) :=
  match s.dropWhile pyIsSpace with
  | [] => none
  | c :: r =>
      if c = '\x7b' then
        match r.dropWhile pyIsSpace with
        | [] => none
        | d :: rest =>
            if d = '\x7d' then (if rest.dropWhile pyIsSpace = [] then some [] else none)
            else
              match parseEntriesAux (d :: rest).length (d :: rest) with
              | some pr => if pr.2.dropWhile pyIsSpace = [] then some pr.1 else none
              | none => none
      else none

/-- Python `key in dict`. -/
def hasKey : List CMLField → Str → Bool
  | [], _ => false
  | f :: fs, k => if f.key = k then true else hasKey fs k

/-- Python `dict` assignment `d[key] = f`: update in place if the key is
present (keeping its insertion-order position), else append. -/
def insertDict : List CMLField → CMLField → List CMLField
  | [], f => [f]
  | g :: gs, f => if g.key = f.key then f :: gs else g :: insertDict gs f

/-- One iteration of the loop in `CMLParser.parse_content` (lines 66–79):
parse the params clause (downgrading a failure to `{}` plus a warning),
warn on a duplicate key, store the field. -/
def procTriple (st : List CMLField × List Warn) (t : Str × Option Str × Str) :
    List CMLField × List Warn :=
  let pw : List (Str × Str) × List Warn :=
    match t.2.1 with
    | none => ([], [])
    | some pstr =>
        match literalEval pstr with
        | some ps => (ps, [])
        | none => ([], [Warn.invalidParams t.1 pstr])
  let dw : List Warn := if hasKey st.1 t.1 then [Warn.duplicateKey t.1] else []
  (insertDict st.1 ⟨t.1, t.2.2, pw.1⟩, st.2 ++ pw.2 ++ dw)

/-- `CMLParser.parse_content` (lines 64–81): reset the store, scan the
document, fold every match into the store. -/
def parseContent (s : Str) : List CMLField × List Warn :=
  (scanDoc s).foldl procTriple ([], [])

/-- Python `dict.get`. -/
def lookupField : List CMLField → Str → Option CMLField
  | [], _ => none
  | f :: fs, k => if f.key = k then some f else lookupField fs k

/-- Python `dict.pop` / `del`: remove the entry for `k`, preserving the
order of the others. -/
def eraseKey : List CMLField → Str → List CMLField
  | [], _ => []
  | f :: fs, k => if f.key = k then fs else f :: eraseKey fs k

/-- In-place mutation of the field object stored under `k`. -/
def updateField : List CMLField → Str → (CMLField → CMLField) → List CMLField
  | [], _, _ => []
  | f :: fs, k, g => if f.key = k then g f :: fs else f :: updateField fs k g

/-- Python dict assignment on a params mapping. -/
def insertParam : List (Str × Str) → Str → Str → List (Str × Str)
  | [], n, v => [(n, v)]
  | e :: es, n, v => if e.1 = n then (n, v) :: es else e :: insertParam es n v

/-- `CMLParser.set_param_value` (lines 90–95). -/
def setParamValue (fs : List CMLField) (k n v : Str) : List CMLField × List Warn :=
  match lookupField fs k with
  | some _ => (updateField fs k (fun f => ⟨f.key, f.content, insertParam f.params n v⟩), [])
  | none => (fs, [Warn.fieldNotFound k])

/-- `CMLParser.change_field_name` (lines 97–103): `pop` the old entry,
re-key the field object, then dict-assign it under the new key. -/
def changeFieldName (fs : List CMLField) (oldKey newKey : Str) :
    List CMLField × List Warn :=
  match lookupField fs oldKey with
  | some f => (insertDict (eraseKey fs oldKey) ⟨newKey, f.content, f.params⟩, [])
  | none => (fs, [Warn.fieldNotFound oldKey])

/-- `CMLParser.delete_field` (lines 112–116). -/
def deleteField (fs : List CMLField) (k : Str) : List CMLField × List Warn :=
  if hasKey fs k then (eraseKey fs k, []) else (fs, [Warn.fieldNotFound k])

/-- `CMLParser.add_field` (lines 118–122): warns and does nothing when the
key already exists. -/
def addField (fs : List CMLField) (k c : Str) (ps : List (Str × Str)) :
    List CMLField × List Warn :=
  if hasKey fs k then (fs, [Warn.fieldExists k]) else (fs ++ [⟨k, c, ps⟩], [])

/-- `CMLParser.replace_field_content` (lines 124–129). -/
def replaceFieldContent (fs : List CMLField) (k c : Str) : List CMLField × List Warn :=
  match lookupField fs k with
  | some _ => (updateField fs k (fun f => ⟨f.key, c, f.params⟩), [])
  | none => (fs, [Warn.fieldNotFound k])

/-- `content[:-1] if content.endswith('\n') else content`
(`generate_cml_field`, line 138). -/
def contentTrim (c : Str) : Str := if endsNl c then c.dropLast else c

/-- One entry of Python's `repr` of a string-to-string dict: `'k': 'v'`. -/
def reprEntry (e : Str × Str) : Str :=
  '\x27' :: e.1 ++ '\x27' :: ':' :: ' ' :: '\x27' :: e.2 ++ ['\x27']

/-- Comma-separated entries, as in Python's dict `repr`. -/
def reprEntries : List (Str × Str) → Str
  | [] => []
  | [e] => reprEntry e
  | e :: f :: t => reprEntry e ++ ',' :: ' ' :: reprEntries (f :: t)

/-- Python's `repr` of a string-to-string dict (what the f-string
`f"params={field.params}"` interpolates). -/
def reprParams (ps : List (Str × Str)) : Str := '\x7b' :: reprEntries ps ++ ['\x7d']

/-- `f", params={field.params}" if field.params else ""`. -/
def paramClause (ps : List (Str × Str)) : Str :=
  if ps = [] then [] else ',' :: ' ' :: strL "params" ++ '=' :: reprParams ps

/-- `CMLParser.generate_cml_field` (lines 131–140), `python` profile:
`f"# [[cc.{key}{params_str}]]{content}\n# [[/cc.{key}]]"` with one
trailing newline stripped from the stored content. -/
def genCmlField (f : CMLField) : Str :=
  '#' :: ' ' :: litOpen ++ f.key ++ paramClause f.params ++ litBrk
    ++ contentTrim f.content ++ '\n' :: '#' :: ' ' :: closeLitOf f.key

/-- `CMLParser.generate_cml_content` (lines 142–143):
`"\n\n".join(...)` over the fields in store order. -/
def generateCmlContent : List CMLField → Str
  | [] => []
  | [f] => genCmlField f
  | f :: g :: t => genCmlField f ++ '\n' :: '\n' :: generateCmlContent (g :: t)

/-- The optional params capture a field re-serializes to: `none` when the
params mapping is empty (the clause is omitted), else the `repr` text. -/
def paramsOptOf (f : CMLField) : Option Str :=
  if f.params = [] then none else some (reprParams f.params)

/-- A lexically valid tag key: non-empty, all characters in `[\w.]`. -/
def keyOk (k : Str) : Bool := !k.isEmpty && k.all isWordDot

/-- A parameter entry whose key and value are plain (quote-free) strings. -/
def paramOk (e : Str × Str) : Bool :=
  e.1.all (fun c => !(c == '\x27')) && e.2.all (fun c => !(c == '\x27'))

/-- Well-formedness of a stored Region, matching the spec's side
conditions for round-tripping: a valid key, content ending in a newline
(tags on their own lines), no embedded fence-like substring (the field's
own closing tag) in the content, and plain parameters whose rendered
form contains no `]]`. -/
def wfField (f : CMLField) : Bool :=
  keyOk f.key && endsNl f.content
    && !containsSub (closeLitOf f.key) (contentTrim f.content)
    && f.params.all paramOk
    && !containsSub litBrk (reprParams f.params)

/-- Well-formedness of a whole store. -/
def wfStore (fs : List CMLField) : Bool := fs.all wfField

/-! ### Indentation Normalizer — `cml_indentation_remover.py` -/

/-- Python's `text.split('\n')`. -/
def splitNl : Str → List Str
  | [] => [[]]
  | c :: cs =>
      if c = '\n' then [] :: splitNl cs
      else
        match splitNl cs with
        | [] => [[c]]
        | h :: t => (c :: h) :: t

/-- Python's `'\n'.join(lines)`. -/
def joinNl : List Str → Str
  | [] => []
  | [l] => l
  | l :: m :: t => l ++ '\n' :: joinNl (m :: t)

/-- The regex fragment `\]\]` reachable through the lazy `.*?` (without
`re.DOTALL`, `.` does not cross a newline). -/
def brkReach : Str → Bool
  | [] => false
  | c :: cs =>
      if litBrk.isPrefixOf (c :: cs) then true
      else if c = '\n' then false
      else brkReach cs

/-- The tag body `\[\[/?cc\..*?\]\]` of `CML_PATTERN`. -/
def tagCore (s : Str) : Bool :=
  match dropLit (strL "[[") s with
  | none => false
  | some t =>
      match dropLit (strL "cc.") (match t with | '/' :: u => u | _ => t) with
      | none => false
      | some t3 => brkReach t3

/-- `re.match(CML_PATTERN, line)` for
`CML_PATTERN = r'^\s*(#\s*\[\[/?cc\..*?\]\]|\[\[/?cc\..*?\]\])'`. -/
def cmlLineMatch (line : Str) : Bool :=
  match line.dropWhile pyIsSpace with
  | '#' :: t => tagCore (t.dropWhile pyIsSpace)
  | r => tagCore r

/-- `remove_cml_indentation` (`cml_indentation_remover.py`, lines 20–39):
split on newlines, `lstrip` the lines matching `CML_PATTERN`, keep every
other line unchanged, re-join with newlines. -/
def removeCmlIndentation (text : Str) : Str :=
  joinNl ((splitNl text).map (fun l => if cmlLineMatch l then l.dropWhile pyIsSpace else l))

/-! ### Output-envelope extraction — `output_parser.py`, class `OutputParser` -/

/-- The lazy `(.*?)` followed by the literal `d` (the capture may be
empty); returns (captured, rest after `d`). -/
def lazyUntil0 (d : Str) : Str → Option (Str × Str)
  | [] =>
      match dropLit d [] with
      | some r => some ([], r)
      | none => none
  | c :: cs =>
      match dropLit d (c :: cs) with
      | some r => some ([], r)
      | none =>
          match lazyUntil0 d cs with
          | some pr => some (c :: pr.1, pr.2)
          | none => none

/-- `re.search` for `OPEN(.*?)CLOSE` with literal `OPEN`/`CLOSE`:
leftmost start position at which the opening literal matches and the
closing literal occurs later, shortest capture there. -/
def searchBlock (o c : Str) : Str → Option Str
  | [] => none
  | x :: xs =>
      match dropLit o (x :: xs) with
      | some rest =>
          match lazyUntil0 c rest with
          | some pr => some pr.1
          | none => searchBlock o c xs
      | none => searchBlock o c xs

/-- Python's `str.strip()` on the trailing side. -/
def pyStripTail (s : Str) : Str := (s.reverse.dropWhile pyIsSpace).reverse

/-- Python's `str.strip()`: leading and trailing whitespace removed. -/
def pyStrip (s : Str) : Str := pyStripTail (s.dropWhile pyIsSpace)

/-- The literal `[[cc.out.NAME]]` interpolated into the `_parse_block`
pattern. -/
def outOpen (name : Str) : Str := strL "[[cc.out." ++ name ++ strL "]]"

/-- The literal `[[/cc.out.NAME]]`. -/
def outClose (name : Str) : Str := strL "[[/cc.out." ++ name ++ strL "]]"

/-- `OutputParser._parse_block` (lines 52–61): search the raw content for
the fenced block and return the captured group stripped of surrounding
whitespace (`match.group(1).strip()`); `none` when absent.  (The block
name is interpolated into the pattern unescaped; the program only passes
the four alphanumeric literals below, for which regex and literal match
coincide.) -/
def parseBlock (name raw : Str) : Option Str :=
  (searchBlock (outOpen name) (outClose name) raw).map pyStrip

/-- The parsed output envelope (`_parse_raw_content`'s dict). -/
structure ParsedOutput where
  filename : Str
  mode : Str
  code : Str
  explanation : Option Str
deriving DecidableEq, Repr

/-- `OutputParser._parse_raw_content` (lines 41–49): three required keys
(a missing one raises `ValueError`, modelled as `none`) and an optional
`explanation`. -/
def parseRawContent (raw : Str) : Option ParsedOutput :=
  match parseBlock (strL "filename") raw, parseBlock (strL "mode") raw,
        parseBlock (strL "code") raw with
  | some f, some m, some c => some ⟨f, m, c, parseBlock (strL "explanation") raw⟩
  | _, _, _ => none

/-! ## Lemmas -/

theorem lookupField_eq_none {fs : List CMLField} {k : Str} (h : hasKey fs k = false) :
    lookupField fs k = none := by
  induction fs with
  | nil => rfl
  | cons f t ih =>
    by_cases hk : f.key = k
    · simp [hasKey, hk] at h
    · simp only [hasKey, if_neg hk] at h
      simp [lookupField, hk, ih h]

theorem hasKey_eraseKey_false {fs : List CMLField} {o n : Str} (h : hasKey fs n = false) :
    hasKey (eraseKey fs o) n = false := by
  induction fs with
  | nil => rfl
  | cons f t ih =>
    by_cases hk : f.key = n
    · simp [hasKey, hk] at h
    · simp only [hasKey, if_neg hk] at h
      by_cases ho : f.key = o
      · simpa [eraseKey, ho] using h
      · simp [eraseKey, ho, hasKey, hk, ih h]

theorem insertDict_append {fs : List CMLField} {f : CMLField}
    (h : hasKey fs f.key = false) : insertDict fs f = fs ++ [f] := by
  induction fs with
  | nil => rfl
  | cons g t ih =>
    by_cases hk : g.key = f.key
    · simp [hasKey, hk] at h
    · simp only [hasKey, if_neg hk] at h
      simp [insertDict, hk, ih h]

theorem removeBlock_span (bt T A M C : Str)
    (hT : T = A ++ blockStartTag bt ++ M ++ blockEndTag bt ++ C)
    (h1 : findSub (blockStartTag bt) T = some A.length)
    (h2 : findSub (blockEndTag bt) T
      = some (A.length + (blockStartTag bt).length + M.length)) :
    removeBlock T bt = A ++ C := by
  simp only [removeBlock, h1, h2]
  subst hT
  have ht : List.take A.length (A ++ blockStartTag bt ++ M ++ blockEndTag bt ++ C)
      = A := by
    rw [show A ++ blockStartTag bt ++ M ++ blockEndTag bt ++ C
        = A ++ (blockStartTag bt ++ M ++ blockEndTag bt ++ C) by simp]
    exact List.take_left _ _
  have hd : List.drop
        (A.length + (blockStartTag bt).length + M.length + (blockEndTag bt).length)
        (A ++ blockStartTag bt ++ M ++ blockEndTag bt ++ C) = C :=
    List.drop_left' (by simp only [List.length_append])
  rw [ht, hd]

theorem addOrReplace_span (bt bc T A M C : Str)
    (hT : T = A ++ blockStartTag bt ++ M ++ blockEndTag bt ++ C)
    (h1 : findSub (blockStartTag bt) T = some A.length)
    (h2 : findSub (blockEndTag bt) T
      = some (A.length + (blockStartTag bt).length + M.length)) :
    addOrReplaceBlock T bt bc = A ++ renderBlock bt bc ++ C := by
  simp only [addOrReplaceBlock, h1, h2]
  subst hT
  have ht : List.take A.length (A ++ blockStartTag bt ++ M ++ blockEndTag bt ++ C)
      = A := by
    rw [show A ++ blockStartTag bt ++ M ++ blockEndTag bt ++ C
        = A ++ (blockStartTag bt ++ M ++ blockEndTag bt ++ C) by simp]
    exact List.take_left _ _
  have hd : List.drop
        (A.length + (blockStartTag bt).length + M.length + (blockEndTag bt).length)
        (A ++ blockStartTag bt ++ M ++ blockEndTag bt ++ C) = C :=
    List.drop_left' (by simp only [List.length_append])
  rw [ht, hd]

theorem addOrReplace_append (bt bc T : Str)
    (h : findSub (blockStartTag bt) T = none) :
    addOrReplaceBlock T bt bc =
      if T ≠ [] ∧ ¬ endsNl T = true then T ++ '\n' :: renderBlock bt bc
      else T ++ renderBlock bt bc := by
  cases hbe : findSub (blockEndTag bt) T <;> simp [addOrReplaceBlock, h, hbe]

theorem pre_app {n a b : Str} (h : n <+: a ++ b) :
    n <+: a ∨ ∃ t, n = a ++ t ∧ t <+: b := by
  induction a generalizing n with
  | nil => exact Or.inr ⟨n, rfl, by simpa using h⟩
  | cons x xs ih =>
    cases n with
    | nil => exact Or.inl (List.nil_prefix)
    | cons y ys =>
      rw [List.cons_append] at h
      obtain ⟨rfl, h2⟩ := List.cons_prefix_cons.mp h
      rcases ih h2 with h3 | ⟨t, rfl, ht⟩
      · exact Or.inl (List.cons_prefix_cons.mpr ⟨rfl, h3⟩)
      · exact Or.inr ⟨t, by simp, ht⟩

theorem containsSub_true_of {n t P : Str} (h1 : n <+: t) (h2 : t <:+ P) :
    containsSub n P = true := by
  induction P with
  | nil =>
    have ht : t = [] := List.suffix_nil.mp h2
    subst ht
    have hn : n = [] := List.prefix_nil.mp h1
    subst hn
    rfl
  | cons c cs ih =>
    rcases List.suffix_cons_iff.mp h2 with rfl | h3
    · simp [containsSub, List.isPrefixOf_iff_prefix, h1]
    · simp [containsSub, ih h3]

theorem dropLit_eq_some {l s t : Str} : dropLit l s = some t ↔ s = l ++ t := by
  induction l generalizing s with
  | nil => simp [dropLit]
  | cons a as ih =>
    cases s with
    | nil => simp [dropLit]
    | cons b bs =>
      by_cases hab : a = b
      · subst hab
        simp [dropLit, ih]
      · simp only [dropLit, if_neg hab, List.cons_append]
        constructor
        · intro h
          exact absurd h (by simp)
        · intro h
          injection h with h1 _
          exact absurd h1.symm hab

theorem dropLit_append (l r : Str) : dropLit l (l ++ r) = some r := dropLit_eq_some.mpr rfl

theorem dropLit_none_iff {l s : Str} : dropLit l s = none ↔ ¬ l <+: s := by
  constructor
  · intro h hpre
    obtain ⟨t, ht⟩ := hpre
    rw [← ht, dropLit_append] at h
    simp at h
  · intro h
    cases hh : dropLit l s with
    | none => rfl
    | some t => exact absurd ⟨t, (dropLit_eq_some.mp hh).symm⟩ h

/-- Failure of a literal match inside separator-free filler: if the
literal has the shape `[[x…` with `x ≠ [`, the filler `P` contains no
`[[`, and the text continues with the literal itself, then the literal
cannot match starting inside the filler. -/
theorem dropLit_none_of_separator {aLit a3 rest P t : Str}
    (ha : aLit = '[' :: '[' :: a3) (h3 : a3 ≠ []) (h3' : a3.head? ≠ some '[')
    (hP : containsSub (strL "[[") P = false)
    (ht : t ≠ []) (hts : t <:+ P) :
    dropLit aLit (t ++ (aLit ++ rest)) = none := by
  rw [dropLit_none_iff]
  intro hpre
  rcases pre_app hpre with h1 | ⟨u, hu, hus⟩
  · have hbr : strL "[[" <+: t := (by rw [ha]; exact ⟨a3, rfl⟩ : strL "[[" <+: aLit).trans h1
    rw [containsSub_true_of hbr hts] at hP
    simp at hP
  · cases t with
    | nil => exact ht rfl
    | cons x ts =>
      cases ts with
      | nil =>
        rw [ha] at hu hus
        have h2 : u = '[' :: a3 := by simpa using congrArg List.tail hu.symm
        rw [h2] at hus
        have h4 := List.cons_prefix_cons.mp hus
        cases a3 with
        | nil => exact h3 rfl
        | cons z zs =>
          have h5 := List.cons_prefix_cons.mp h4.2
          exact h3' (by simp [h5.1])
      | cons y ts2 =>
        rw [ha] at hu
        have h1 : x = '[' := by simpa using congrArg List.head? hu.symm
        have h2 : y = '[' := by
          simpa using congrArg (fun l => l.tail.head?) hu.symm
        have hbr : strL "[[" <+: x :: y :: ts2 := by
          rw [h1, h2]
          exact ⟨ts2, rfl⟩
        rw [containsSub_true_of hbr hts] at hP
        simp at hP

theorem searchBlock_skip (o cl P S : Str)
    (hfail : ∀ t, t ≠ [] → t <:+ P → dropLit o (t ++ S) = none) :
    searchBlock o cl (P ++ S) = searchBlock o cl S := by
  induction P with
  | nil => simp
  | cons x xs ih =>
    have h0 : dropLit o (x :: (xs ++ S)) = none := by
      rw [← List.cons_append]
      exact hfail (x :: xs) (by simp) (List.suffix_refl _)
    rw [List.cons_append]
    simp only [searchBlock, h0]
    exact ih (fun t htn hts => hfail t htn (hts.trans (List.suffix_cons x xs)))

theorem lazyUntil0_exact (d I Z : Str) (hd : d ≠ [])
    (hfail : ∀ t, t ≠ [] → t <:+ I → dropLit d (t ++ (d ++ Z)) = none) :
    lazyUntil0 d (I ++ (d ++ Z)) = some (I, Z) := by
  induction I with
  | nil =>
    cases d with
    | nil => exact absurd rfl hd
    | cons a as =>
      have h0 : dropLit (a :: as) (a :: (as ++ Z)) = some Z := by
        rw [← List.cons_append]
        exact dropLit_append _ _
      simp [lazyUntil0, h0]
  | cons x xs ih =>
    have h0 : dropLit d (x :: (xs ++ (d ++ Z))) = none := by
      rw [← List.cons_append]
      exact hfail (x :: xs) (by simp) (List.suffix_refl _)
    have ih' := ih (fun t htn hts => hfail t htn (hts.trans (List.suffix_cons x xs)))
    rw [List.cons_append]
    simp [lazyUntil0, h0, ih']

theorem searchBlock_hit (o cl I Z : Str) (ho : o ≠ []) (hcl : cl ≠ [])
    (hfail : ∀ t, t ≠ [] → t <:+ I → dropLit cl (t ++ (cl ++ Z)) = none) :
    searchBlock o cl (o ++ (I ++ (cl ++ Z))) = some I := by
  cases o with
  | nil => exact absurd rfl ho
  | cons a as =>
    have h0 : dropLit (a :: as) (a :: (as ++ (I ++ (cl ++ Z))))
        = some (I ++ (cl ++ Z)) := by
      rw [← List.cons_append]
      exact dropLit_append _ _
    rw [List.cons_append]
    simp only [searchBlock, h0]
    rw [lazyUntil0_exact cl I Z hcl hfail]

theorem dropWhile_append_all {p : Char → Bool} {a : Str} (b : Str)
    (h : ∀ c ∈ a, p c = true) : (a ++ b).dropWhile p = b.dropWhile p := by
  induction a with
  | nil => rfl
  | cons c cs ih =>
    simp only [List.cons_append, List.dropWhile_cons, h c (by simp)]
    exact ih (fun x hx => h x (by simp [hx]))

theorem dropWhile_eq_nil_all {p : Char → Bool} {a : Str}
    (h : ∀ c ∈ a, p c = true) : a.dropWhile p = [] :=
  List.dropWhile_eq_nil_iff.mpr (by intro x hx; simp [h x hx])

theorem pyStripTail_append_spaces {y w : Str} (hw : ∀ a ∈ w, pyIsSpace a = true) :
    pyStripTail (y ++ w) = pyStripTail y := by
  unfold pyStripTail
  rw [show (y ++ w).reverse = w.reverse ++ y.reverse by simp]
  rw [dropWhile_append_all _ (fun a ha => hw a (List.mem_reverse.mp ha))]

theorem pyStrip_sandwich {w1 w2 x : Str} (h1 : ∀ a ∈ w1, pyIsSpace a = true)
    (h2 : ∀ a ∈ w2, pyIsSpace a = true) :
    pyStrip (w1 ++ x ++ w2) = pyStrip x := by
  unfold pyStrip
  rw [show w1 ++ x ++ w2 = w1 ++ (x ++ w2) by simp, dropWhile_append_all _ h1,
    List.dropWhile_append]
  by_cases hx : (x.dropWhile pyIsSpace).isEmpty = true
  · rw [if_pos hx, dropWhile_eq_nil_all h2, List.isEmpty_iff.mp hx]
  · rw [if_neg hx]
    exact pyStripTail_append_spaces h2

theorem parseBlock_exact (name pre I post : Str)
    (hpre : containsSub (strL "[[") pre = false)
    (hI : containsSub (strL "[[") I = false) :
    parseBlock name (pre ++ outOpen name ++ I ++ outClose name ++ post)
      = some (pyStrip I) := by
  have haO : outOpen name
      = '[' :: '[' :: ('c' :: 'c' :: '.' :: 'o' :: 'u' :: 't' :: '.'
          :: (name ++ strL "]]")) := rfl
  have haC : outClose name
      = '[' :: '[' :: ('/' :: 'c' :: 'c' :: '.' :: 'o' :: 'u' :: 't' :: '.'
          :: (name ++ strL "]]")) := rfl
  have e0 : pre ++ outOpen name ++ I ++ outClose name ++ post
      = pre ++ (outOpen name ++ (I ++ (outClose name ++ post))) := by simp
  rw [parseBlock, e0]
  rw [searchBlock_skip _ _ pre _ (fun t htn hts =>
    dropLit_none_of_separator haO (by simp) (by simp) hpre htn hts)]
  rw [searchBlock_hit _ _ I post (by rw [haO]; simp) (by rw [haC]; simp)
    (fun t htn hts =>
      dropLit_none_of_separator haC (by simp) (by simp) hI htn hts)]
  rfl

theorem splitNl_ne_nil (t : Str) : splitNl t ≠ [] := by
  induction t with
  | nil => simp [splitNl]
  | cons c cs ih =>
    by_cases h : c = '\n'
    · simp [splitNl, h]
    · simp only [splitNl, if_neg h]
      cases hs : splitNl cs with
      | nil => simp
      | cons a b => simp

theorem splitNl_noNl (t : Str) : ∀ l ∈ splitNl t, '\n' ∉ l := by
  induction t with
  | nil =>
    intro l hl
    simp only [splitNl, List.mem_singleton] at hl
    simp [hl]
  | cons c cs ih =>
    intro l hl
    by_cases h : c = '\n'
    · simp only [splitNl, if_pos h, List.mem_cons] at hl
      rcases hl with rfl | hl
      · simp
      · exact ih l hl
    · simp only [splitNl, if_neg h] at hl
      cases hs : splitNl cs with
      | nil => exact absurd hs (splitNl_ne_nil cs)
      | cons a b =>
        rw [hs] at hl
        rcases List.mem_cons.mp hl with rfl | hl'
        · intro hmem
          rcases List.mem_cons.mp hmem with rfl | hmem'
          · exact h rfl
          · exact ih a (hs ▸ List.mem_cons_self a b) hmem'
        · exact ih l (hs ▸ List.mem_cons_of_mem a hl')

theorem splitNl_of_noNl (l : Str) (h : '\n' ∉ l) : splitNl l = [l] := by
  induction l with
  | nil => rfl
  | cons c cs ih =>
    have hc : ¬ c = '\n' := fun hc => h (by simp [hc])
    simp only [splitNl, if_neg hc, ih (fun hm => h (List.mem_cons_of_mem c hm))]

theorem splitNl_append_nl (l R : Str) (h : '\n' ∉ l) :
    splitNl (l ++ '\n' :: R) = l :: splitNl R := by
  induction l with
  | nil => simp [splitNl]
  | cons c cs ih =>
    have hc : ¬ c = '\n' := fun hc => h (by simp [hc])
    have ih' := ih (fun hm => h (List.mem_cons_of_mem c hm))
    simp only [List.cons_append, splitNl, if_neg hc, List.append_eq] at ih' ⊢
    rw [ih']

theorem splitNl_joinNl (ls : List Str) (h : ∀ l ∈ ls, '\n' ∉ l) (hne : ls ≠ []) :
    splitNl (joinNl ls) = ls := by
  induction ls with
  | nil => exact absurd rfl hne
  | cons l t ih =>
    cases t with
    | nil => simpa [joinNl] using splitNl_of_noNl l (h l (by simp))
    | cons m t' =>
      rw [show joinNl (l :: m :: t') = l ++ '\n' :: joinNl (m :: t') from rfl,
        splitNl_append_nl l _ (h l (by simp)),
        ih (fun x hx => h x (by simp [hx])) (by simp)]

theorem dropLit_suffix {l s t : Str} (h : dropLit l s = some t) : t <:+ s :=
  ⟨l, (dropLit_eq_some.mp h).symm⟩

theorem dropHash_suffix (s : Str) : dropHash s <:+ s := by
  cases s with
  | nil => simp [dropHash]
  | cons c t =>
    by_cases h : c = '#'
    · simp only [dropHash, if_pos h]
      exact List.suffix_cons c t
    · simp [dropHash, h]

theorem closeLitOf_head (key : Str) :
    closeLitOf key = '[' :: ('[' :: '/' :: 'c' :: 'c' :: '.' :: (key ++ strL "]]")) := rfl

theorem closeLitOf_len (key : Str) : 0 < (closeLitOf key).length := by
  rw [closeLitOf_head]
  simp

theorem tryClose_some {key u r : Str} (h : tryClose key u = some r) :
    r <:+ u ∧ r.length < u.length := by
  unfold tryClose at h
  have h2 := dropLit_eq_some.mp h
  have hs : closeLitOf key ++ r <:+ u := by
    rw [← h2]
    exact (List.dropWhile_suffix _).trans (dropHash_suffix u)
  have hr : r <:+ u := (List.suffix_append (closeLitOf key) r).trans hs
  refine ⟨hr, ?_⟩
  have hlen := hs.length_le
  rw [List.length_append] at hlen
  have hcl := closeLitOf_len key
  omega

theorem closeSearch_some {key : Str} {s ct r : Str}
    (h : closeSearch key s = some (ct, r)) : r <:+ s ∧ r.length < s.length := by
  induction s generalizing ct r with
  | nil => simp [closeSearch] at h
  | cons c cs ih =>
    cases htc : tryClose key (c :: cs) with
    | some rr =>
      simp only [closeSearch, htc, Option.some.injEq, Prod.mk.injEq] at h
      rw [← h.2]
      exact tryClose_some htc
    | none =>
      simp only [closeSearch, htc] at h
      cases hcs : closeSearch key cs with
      | none => rw [hcs] at h; simp at h
      | some pr =>
        rw [hcs] at h
        simp only [Option.some.injEq, Prod.mk.injEq] at h
        obtain ⟨_, h2⟩ := h
        obtain ⟨hsuf, hlen⟩ := ih hcs
        rw [← h2]
        exact ⟨hsuf.trans (List.suffix_cons c cs), by simpa using Nat.lt_succ_of_lt hlen⟩

theorem lazyUntil1All_mem {d s p r : Str} (h : (p, r) ∈ lazyUntil1All d s) :
    s = p ++ (d ++ r) ∧ p ≠ [] := by
  induction s generalizing p r with
  | nil => simp [lazyUntil1All] at h
  | cons c cs ih =>
    simp only [lazyUntil1All] at h
    rcases List.mem_append.mp h with h1 | h2
    · cases hdl : dropLit d cs with
      | some rest =>
        rw [hdl] at h1
        simp only [List.mem_singleton, Prod.mk.injEq] at h1
        obtain ⟨rfl, rfl⟩ := h1
        refine ⟨?_, by simp⟩
        rw [← dropLit_eq_some.mp hdl]
        rfl
      | none =>
        rw [hdl] at h1
        simp at h1
    · rcases List.mem_map.mp h2 with ⟨pr, hpr, heq⟩
      obtain ⟨h3, _⟩ := ih (p := pr.1) (r := pr.2) (by simpa using hpr)
      obtain ⟨rfl, rfl⟩ : c :: pr.1 = p ∧ pr.2 = r := by
        simpa [Prod.ext_iff] using heq
      exact ⟨by rw [List.cons_append, ← h3], by simp⟩

theorem spacesThenLazyAll_mem {s p r : Str} (h : (p, r) ∈ spacesThenLazyAll s) :
    ∃ t, t <:+ s ∧ t = p ++ (litBrk ++ r) ∧ p ≠ [] := by
  induction s with
  | nil => simp [spacesThenLazyAll] at h
  | cons c cs ih =>
    simp only [spacesThenLazyAll] at h
    by_cases hc : pyIsSpace c = true
    · rw [if_pos hc] at h
      rcases List.mem_append.mp h with h1 | h2
      · obtain ⟨t, ht, he, hp⟩ := ih h1
        exact ⟨t, ht.trans (List.suffix_cons c cs), he, hp⟩
      · obtain ⟨he, hp⟩ := lazyUntil1All_mem h2
        exact ⟨c :: cs, List.suffix_refl _, he, hp⟩
    · rw [if_neg hc] at h
      obtain ⟨he, hp⟩ := lazyUntil1All_mem h
      exact ⟨c :: cs, List.suffix_refl _, he, hp⟩

theorem spacesThenLazyAll_mem_len {s p r : Str} (h : (p, r) ∈ spacesThenLazyAll s) :
    r <:+ s ∧ r.length + 3 ≤ s.length := by
  obtain ⟨t, ht, he, hp⟩ := spacesThenLazyAll_mem h
  have h1 : r <:+ t := by
    rw [he]
    exact (List.suffix_append litBrk r).trans (List.suffix_append p _)
  have h2 : t.length = p.length + (litBrk.length + r.length) := by
    rw [he]
    simp [List.length_append]
  have hlb : litBrk.length = 2 := rfl
  have h3 := ht.length_le
  have h4 : 1 ≤ p.length := by
    cases p with
    | nil => exact absurd rfl hp
    | cons a b => simp
  exact ⟨h1.trans ht, by omega⟩

theorem tryParamsAll_comma (t : Str) :
    tryParamsAll (',' :: t)
      = (match dropLit (strL "params") (t.dropWhile pyIsSpace) with
        | none => []
        | some t2 =>
            match t2.dropWhile pyIsSpace with
            | '=' :: t3 => spacesThenLazyAll t3
            | _ => []) := rfl

theorem tryParamsAll_not_comma {c : Char} {cs : Str} (h : ¬ c = ',') :
    tryParamsAll (c :: cs) = [] := by
  unfold tryParamsAll
  split
  · next t heq =>
    injection heq with h1 _
    exact absurd h1 h
  · rfl

theorem tryParamsAll_eq_of_eq (t t2 t3 : Str)
    (h1 : dropLit (strL "params") (t.dropWhile pyIsSpace) = some t2)
    (h2 : t2.dropWhile pyIsSpace = '=' :: t3) :
    tryParamsAll (',' :: t) = spacesThenLazyAll t3 := by
  rw [tryParamsAll_comma, h1]
  dsimp only
  rw [h2]
  split
  · next t3' heq =>
    injection heq with _ h'
    rw [h']
  · next hne => exact absurd rfl (hne t3)

theorem tryParamsAll_eq_nil_of_ne (t t2 : Str)
    (h1 : dropLit (strL "params") (t.dropWhile pyIsSpace) = some t2)
    (h2 : ∀ t3, t2.dropWhile pyIsSpace ≠ '=' :: t3) :
    tryParamsAll (',' :: t) = [] := by
  rw [tryParamsAll_comma, h1]
  dsimp only
  split
  · next t3 heq => exact absurd heq (h2 t3)
  · rfl

theorem tryParamsAll_mem {s p r : Str} (h : (p, r) ∈ tryParamsAll s) :
    r <:+ s ∧ r.length < s.length := by
  cases s with
  | nil => simp [tryParamsAll] at h
  | cons c cs =>
    by_cases hc : c = ','
    · subst hc
      cases hdl : dropLit (strL "params") (cs.dropWhile pyIsSpace) with
      | none =>
        rw [show tryParamsAll (',' :: cs) = [] by rw [tryParamsAll_comma, hdl]] at h
        simp at h
      | some t2 =>
        have ht2 : t2 <:+ cs := (dropLit_suffix hdl).trans (List.dropWhile_suffix _)
        cases hdw : t2.dropWhile pyIsSpace with
        | nil =>
          rw [tryParamsAll_eq_nil_of_ne cs t2 hdl
            (fun t3 h' => by rw [hdw] at h'; cases h')] at h
          simp at h
        | cons e t3 =>
          by_cases he : e = '='
          · subst he
            rw [tryParamsAll_eq_of_eq cs t2 t3 hdl hdw] at h
            obtain ⟨hsuf, hlen⟩ := spacesThenLazyAll_mem_len h
            have h5 : '=' :: t3 <:+ t2 := hdw ▸ List.dropWhile_suffix _
            have h6 : t3 <:+ t2 := (List.suffix_cons '=' t3).trans h5
            have h7 := h6.length_le
            have h8 := ht2.length_le
            refine ⟨(hsuf.trans h6).trans (ht2.trans (List.suffix_cons ',' cs)), ?_⟩
            simp only [List.length_cons]
            omega
          · rw [tryParamsAll_eq_nil_of_ne cs t2 hdl (fun t3' h' => by
              rw [hdw] at h'
              injection h' with hh _
              exact he hh)] at h
            simp at h
    · rw [tryParamsAll_not_comma hc] at h
      simp at h

theorem firstClose_mem {key : Str} {l : List (Option Str × Str)}
    {ps : Option Str} {ct r : Str} (h : firstClose key l = some (ps, ct, r)) :
    ∃ pr ∈ l, pr.1 = ps ∧ closeSearch key pr.2 = some (ct, r) := by
  induction l with
  | nil => simp [firstClose] at h
  | cons x t ih =>
    obtain ⟨x1, x2⟩ := x
    cases hx : closeSearch key x2 with
    | some pr =>
      simp only [firstClose, hx, Option.some.injEq, Prod.mk.injEq] at h
      refine ⟨(x1, x2), by simp, h.1, ?_⟩
      rw [hx, ← h.2.1, ← h.2.2]
    | none =>
      simp only [firstClose, hx] at h
      obtain ⟨pr, hpr, h1, h2⟩ := ih h
      exact ⟨pr, List.mem_cons_of_mem _ hpr, h1, h2⟩

theorem litOpen_head : litOpen = '[' :: ('[' :: 'c' :: 'c' :: '.' :: []) := rfl

theorem matchAt_some_len {s k : Str} {ps : Option Str} {ct r : Str}
    (h : matchAt s = some (k, ps, ct, r)) : r.length < s.length := by
  unfold matchAt at h
  cases hdl : dropLit litOpen ((dropHash s).dropWhile pyIsSpace) with
  | none => rw [hdl] at h; simp at h
  | some s2 =>
    rw [hdl] at h
    dsimp only at h
    by_cases hk : s2.takeWhile isWordDot = []
    · rw [if_pos hk] at h
      simp at h
    · rw [if_neg hk] at h
      have hs2 : s2.length < s.length := by
        have h1 : (dropHash s).dropWhile pyIsSpace = litOpen ++ s2 :=
          dropLit_eq_some.mp hdl
        have h2 : litOpen ++ s2 <:+ s := by
          rw [← h1]
          exact (List.dropWhile_suffix _).trans (dropHash_suffix s)
        have h3 := h2.length_le
        rw [List.length_append] at h3
        have : 0 < litOpen.length := by rw [litOpen_head]; simp
        omega
      have hs3 : (s2.dropWhile isWordDot).length ≤ s2.length :=
        (List.dropWhile_suffix _).length_le
      cases hfc : firstClose (s2.takeWhile isWordDot)
          ((tryParamsAll (s2.dropWhile isWordDot)).map (fun pr => (some pr.1, pr.2))
            ++ (match dropLit litBrk (s2.dropWhile isWordDot) with
                | some rest => [(none, rest)]
                | none => [])) with
      | none => rw [hfc] at h; simp at h
      | some q =>
        obtain ⟨ps', ct', r'⟩ := q
        rw [hfc] at h
        simp only [Option.some.injEq, Prod.mk.injEq] at h
        obtain ⟨-, -, -, hr⟩ := h
        obtain ⟨pr, hmem, -, hcs⟩ := firstClose_mem hfc
        have hlt : r'.length < pr.2.length := (closeSearch_some hcs).2
        rcases List.mem_append.mp hmem with h1 | h2
        · rcases List.mem_map.mp h1 with ⟨q2, hq2, heq⟩
          have h4 : pr.2 = q2.2 := by rw [← heq]
          have h5 := (tryParamsAll_mem (p := q2.1) (r := q2.2) (by simpa using hq2)).2
          rw [← hr]
          rw [h4] at hlt
          omega
        · revert h2
          cases hdb : dropLit litBrk (s2.dropWhile isWordDot) with
          | none => intro h2; simp at h2
          | some rest =>
            intro h2
            simp only [List.mem_singleton] at h2
            have h4 : pr.2 = rest := by rw [h2]
            have h5 : rest.length ≤ (s2.dropWhile isWordDot).length :=
              (dropLit_suffix hdb).length_le
            rw [← hr]
            rw [h4] at hlt
            omega

theorem scanAux_nil (fu : Nat) : scanAux fu [] = [] := by cases fu <;> rfl

theorem scanAux_fuel : ∀ (f1 f2 : Nat) (s : Str), s.length ≤ f1 → s.length ≤ f2 →
    scanAux f1 s = scanAux f2 s := by
  intro f1
  induction f1 with
  | zero =>
    intro f2 s h1 h2
    have hs : s = [] := List.eq_nil_of_length_eq_zero (Nat.le_zero.mp h1)
    subst hs
    rw [scanAux_nil, scanAux_nil]
  | succ f ih =>
    intro f2 s h1 h2
    cases s with
    | nil => rw [scanAux_nil, scanAux_nil]
    | cons c cs =>
      cases f2 with
      | zero => simp at h2
      | succ g =>
        cases hm : matchAt (c :: cs) with
        | some q =>
          obtain ⟨k, ps, ct, r⟩ := q
          have hr := matchAt_some_len hm
          simp only [scanAux, hm]
          rw [ih g r (by simp at h1 hr ⊢; omega) (by simp at h2 hr ⊢; omega)]
        | none =>
          simp only [scanAux, hm]
          exact ih g cs (by simp at h1 ⊢; omega) (by simp at h2 ⊢; omega)

theorem scanDoc_cons_some {c : Char} {cs k : Str} {ps : Option Str} {ct r : Str}
    (h : matchAt (c :: cs) = some (k, ps, ct, r)) :
    scanDoc (c :: cs) = (k, ps, ct) :: scanDoc r := by
  unfold scanDoc
  simp only [List.length_cons, scanAux, h]
  congr 1
  exact scanAux_fuel cs.length r.length r
    (Nat.lt_succ_iff.mp (by simpa using matchAt_some_len h)) le_rfl

theorem scanDoc_cons_none {c : Char} {cs : Str} (h : matchAt (c :: cs) = none) :
    scanDoc (c :: cs) = scanDoc cs := by
  unfold scanDoc
  simp only [List.length_cons, scanAux, h]

theorem matchAt_none_sep (t S : Str) (ht : t ≠ [])
    (hP : containsSub (strL "[[") t = false)
    (hS : S = [] ∨ S.head? = some '#') :
    matchAt (t ++ S) = none := by
  have h0 : dropLit litOpen ((dropHash (t ++ S)).dropWhile pyIsSpace) = none := by
    obtain ⟨t2, ht2, heq⟩ : ∃ t2, t2 <:+ t ∧ dropHash (t ++ S) = t2 ++ S := by
      cases t with
      | nil => exact absurd rfl ht
      | cons c ts =>
        by_cases hc : c = '#'
        · exact ⟨ts, List.suffix_cons c ts, by rw [List.cons_append]; simp [dropHash, hc]⟩
        · exact ⟨c :: ts, List.suffix_refl _, by rw [List.cons_append]; simp [dropHash, hc]⟩
    rw [heq, List.dropWhile_append]
    by_cases he : (t2.dropWhile pyIsSpace).isEmpty = true
    · rw [if_pos he]
      rcases hS with rfl | hh
      · rfl
      · cases S with
        | nil => simp at hh
        | cons x S' =>
          have hx : x = '#' := by simpa using hh
          subst hx
          rw [List.dropWhile_cons]
          rfl
    · rw [if_neg he]
      have hd : t2.dropWhile pyIsSpace ≠ [] := by
        simpa [List.isEmpty_iff] using he
      have hds : t2.dropWhile pyIsSpace <:+ t := (List.dropWhile_suffix _).trans ht2
      rw [dropLit_none_iff]
      intro hpre
      rcases pre_app hpre with h1 | ⟨u, hu, hus⟩
      · have hbr : strL "[[" <+: t2.dropWhile pyIsSpace :=
          (show strL "[[" <+: litOpen from ⟨'c' :: 'c' :: '.' :: [], rfl⟩).trans h1
        rw [containsSub_true_of hbr hds] at hP
        simp at hP
      · cases u with
        | nil =>
          have hbr : strL "[[" <+: t2.dropWhile pyIsSpace := by
            rw [show t2.dropWhile pyIsSpace = litOpen by rw [hu]; simp]
            exact ⟨'c' :: 'c' :: '.' :: [], rfl⟩
          rw [containsSub_true_of hbr hds] at hP
          simp at hP
        | cons x u' =>
          rcases hS with rfl | hh
          · have := List.prefix_nil.mp hus
            simp at this
          · cases S with
            | nil => simp at hh
            | cons y S' =>
              have hy : y = '#' := by simpa using hh
              subst hy
              have hx : x = '#' := (List.cons_prefix_cons.mp hus).1
              subst hx
              have hmem : ('#' : Char) ∈ litOpen := by
                rw [hu]
                exact List.mem_append_right _ (List.mem_cons_self _ _)
              exact absurd hmem (by decide)
  simp [matchAt, h0]

theorem scanDoc_skip (P S : Str) (hP : containsSub (strL "[[") P = false)
    (hS : S = [] ∨ S.head? = some '#') :
    scanDoc (P ++ S) = scanDoc S := by
  induction P with
  | nil => simp
  | cons c cs ih =>
    have h1 : matchAt (c :: (cs ++ S)) = none := by
      rw [← List.cons_append]
      exact matchAt_none_sep (c :: cs) S (by simp) hP hS
    rw [List.cons_append, scanDoc_cons_none h1]
    have hP' : containsSub (strL "[[") cs = false := by
      simp only [containsSub, Bool.or_eq_false_iff] at hP
      exact hP.2
    exact ih hP'

theorem scanDoc_inert (S : Str) (h : containsSub (strL "[[") S = false) :
    scanDoc S = [] := by
  have h2 := scanDoc_skip S [] h (Or.inl rfl)
  simpa using h2

theorem takeWhile_append_stop {p : Char → Bool} {a b : Str}
    (ha : ∀ c ∈ a, p c = true) (hb : ∀ x, b.head? = some x → p x = false) :
    (a ++ b).takeWhile p = a ∧ (a ++ b).dropWhile p = b := by
  induction a with
  | nil =>
    cases b with
    | nil => exact ⟨rfl, rfl⟩
    | cons x bs =>
      have := hb x rfl
      simp [List.takeWhile_cons, List.dropWhile_cons, this]
  | cons c cs ih =>
    have hc := ha c (by simp)
    have ih' := ih (fun x hx => ha x (by simp [hx]))
    simp [List.takeWhile_cons, List.dropWhile_cons, hc, ih'.1, ih'.2]

theorem brk_chars : litBrk = ']' :: (']' :: []) := rfl

theorem nl_not_mem_closeLit {key : Str} (hkw : key.all isWordDot = true) :
    '\n' ∉ closeLitOf key := by
  intro hmem
  rw [closeLitOf_head] at hmem
  simp only [List.mem_cons, List.mem_append] at hmem
  rcases hmem with h | h | h | h | h | h | hk | hb
  iterate 6 exact absurd h (by decide)
  · have h2 := List.all_eq_true.mp hkw _ hk
    exact absurd h2 (by decide)
  · exact absurd hb (by decide)

theorem tryClose_sep_hit (key R : Str) :
    tryClose key ('#' :: ' ' :: (closeLitOf key ++ R)) = some R := by
  have h : tryClose key ('#' :: ' ' :: (closeLitOf key ++ R))
      = dropLit (closeLitOf key) (closeLitOf key ++ R) := rfl
  rw [h, dropLit_append]

theorem tryClose_sep_nl (key R : Str) :
    tryClose key ('\n' :: '#' :: ' ' :: (closeLitOf key ++ R)) = none := rfl

theorem tryClose_none_mid (key CT R t : Str)
    (hkw : key.all isWordDot = true)
    (hc : containsSub (closeLitOf key) CT = false)
    (ht : t ≠ []) (hts : t <:+ CT) :
    tryClose key (t ++ ('\n' :: '#' :: ' ' :: (closeLitOf key ++ R))) = none := by
  unfold tryClose
  obtain ⟨t2, ht2, heq⟩ : ∃ t2, t2 <:+ t ∧
      dropHash (t ++ ('\n' :: '#' :: ' ' :: (closeLitOf key ++ R)))
        = t2 ++ ('\n' :: '#' :: ' ' :: (closeLitOf key ++ R)) := by
    cases t with
    | nil => exact absurd rfl ht
    | cons c ts =>
      by_cases hch : c = '#'
      · exact ⟨ts, List.suffix_cons c ts, by rw [List.cons_append]; simp [dropHash, hch]⟩
      · exact ⟨c :: ts, List.suffix_refl _, by rw [List.cons_append]; simp [dropHash, hch]⟩
  rw [heq, List.dropWhile_append]
  by_cases he : (t2.dropWhile pyIsSpace).isEmpty = true
  · rw [if_pos he]
    rfl
  · rw [if_neg he]
    have hd : t2.dropWhile pyIsSpace ≠ [] := by
      simpa [List.isEmpty_iff] using he
    have hds : t2.dropWhile pyIsSpace <:+ CT :=
      ((List.dropWhile_suffix _).trans ht2).trans hts
    rw [dropLit_none_iff]
    intro hpre
    rcases pre_app hpre with h1 | ⟨u, hu, hus⟩
    · rw [containsSub_true_of h1 hds] at hc
      simp at hc
    · cases u with
      | nil =>
        have h1 : closeLitOf key <+: t2.dropWhile pyIsSpace := by
          rw [show t2.dropWhile pyIsSpace = closeLitOf key by rw [hu]; simp]
        rw [containsSub_true_of h1 hds] at hc
        simp at hc
      | cons x u' =>
        have hx : x = '\n' := (List.cons_prefix_cons.mp hus).1
        subst hx
        have hmem : ('\n' : Char) ∈ closeLitOf key := by
          rw [hu]
          exact List.mem_append_right _ (List.mem_cons_self _ _)
        exact absurd hmem (nl_not_mem_closeLit hkw)

theorem closeSearch_exact (key CT R : Str)
    (hkw : key.all isWordDot = true)
    (hc : containsSub (closeLitOf key) CT = false) :
    closeSearch key (CT ++ ('\n' :: '#' :: ' ' :: (closeLitOf key ++ R)))
      = some (CT ++ ['\n'], R) := by
  induction CT with
  | nil =>
    simp only [List.nil_append]
    simp only [closeSearch, tryClose_sep_nl, tryClose_sep_hit]
  | cons c cs ih =>
    have hfail : tryClose key (c :: (cs ++ ('\n' :: '#' :: ' ' :: (closeLitOf key ++ R))))
        = none := by
      rw [← List.cons_append]
      exact tryClose_none_mid key (c :: cs) R (c :: cs) hkw hc (by simp)
        (List.suffix_refl _)
    have hc' : containsSub (closeLitOf key) cs = false := by
      simp only [containsSub, Bool.or_eq_false_iff] at hc
      exact hc.2
    rw [List.cons_append]
    simp only [closeSearch, hfail, ih hc']
    simp

theorem suffix_singleton_getLast {x : Char} {l : Str} (h : [x] <:+ l) :
    l.getLast? = some x := by
  obtain ⟨p, hp⟩ := h
  rw [← hp]
  exact List.getLast?_concat p

theorem reprParams_getLast (ps : List (Str × Str)) :
    (reprParams ps).getLast? = some '\x7d' := by
  rw [show reprParams ps = ('\x7b' :: reprEntries ps) ++ ['\x7d'] by simp [reprParams]]
  exact List.getLast?_concat _

theorem spacesThenLazyAll_nospace {c : Char} {cs : Str} (h : pyIsSpace c = false) :
    spacesThenLazyAll (c :: cs) = lazyUntil1All litBrk (c :: cs) := by
  simp [spacesThenLazyAll, h]

theorem lazyUntil1All_head (d P Z : Str) (hP : P ≠ [])
    (hfail : ∀ t, t <:+ P → t ≠ [] → t ≠ P → dropLit d (t ++ (d ++ Z)) = none) :
    ∃ L, lazyUntil1All d (P ++ (d ++ Z)) = (P, Z) :: L := by
  induction P with
  | nil => exact absurd rfl hP
  | cons p P' ih =>
    by_cases hnil : P' = []
    · subst hnil
      refine ⟨(lazyUntil1All d (d ++ Z)).map (fun pr => (p :: pr.1, pr.2)), ?_⟩
      simp only [List.cons_append, List.nil_append, List.append_eq, lazyUntil1All,
        dropLit_append, List.singleton_append]
    · have hdl : dropLit d (P' ++ (d ++ Z)) = none :=
        hfail P' (List.suffix_cons p P') hnil
          (fun he => absurd (congrArg List.length he) (by simp))
      obtain ⟨L', hL'⟩ := ih hnil (fun t hts htn _ =>
        hfail t (hts.trans (List.suffix_cons p P')) htn
          (fun he => by
            rw [he] at hts
            have h2 := hts.length_le
            simp at h2))
      refine ⟨L'.map (fun pr => (p :: pr.1, pr.2)), ?_⟩
      rw [List.cons_append]
      simp only [lazyUntil1All, hdl, hL']
      simp

theorem open_prelim (Y : Str) :
    dropLit litOpen ((dropHash ('#' :: ' ' :: (litOpen ++ Y))).dropWhile pyIsSpace)
      = some Y := rfl

theorem matchAt_genCmlField (f : CMLField) (R : Str)
    (hk : f.key ≠ []) (hkw : f.key.all isWordDot = true)
    (hc : containsSub (closeLitOf f.key) (contentTrim f.content) = false)
    (hpb : containsSub litBrk (reprParams f.params) = false) :
    matchAt (genCmlField f ++ R)
      = some (f.key, paramsOptOf f, contentTrim f.content ++ ['\n'], R) := by
  have hdec : genCmlField f ++ R
      = '#' :: ' ' :: (litOpen ++ (f.key ++ (paramClause f.params
          ++ (litBrk ++ (contentTrim f.content
          ++ ('\n' :: '#' :: ' ' :: (closeLitOf f.key ++ R))))))) := by
    simp [genCmlField, List.append_assoc]
  rw [hdec]
  have hcs := closeSearch_exact f.key (contentTrim f.content) R hkw hc
  unfold matchAt
  rw [open_prelim]
  dsimp only
  have hz : ∀ x, (paramClause f.params
      ++ (litBrk ++ (contentTrim f.content
        ++ ('\n' :: '#' :: ' ' :: (closeLitOf f.key ++ R))))).head? = some x →
      isWordDot x = false := by
    intro x hx
    by_cases hps : f.params = []
    · rw [show paramClause f.params = [] by simp [paramClause, hps],
        List.nil_append] at hx
      rw [show (litBrk ++ (contentTrim f.content
          ++ ('\n' :: '#' :: ' ' :: (closeLitOf f.key ++ R)))).head? = some ']'
        from rfl] at hx
      injection hx with hx'
      rw [← hx']
      decide
    · rw [show paramClause f.params
          = ',' :: (' ' :: (strL "params" ++ ('=' :: reprParams f.params)))
        by simp [paramClause, hps], List.cons_append] at hx
      injection hx with hx'
      rw [← hx']
      decide
  have hsplit := takeWhile_append_stop (p := isWordDot) (a := f.key)
    (List.all_eq_true.mp hkw) hz
  rw [hsplit.1, hsplit.2, if_neg hk]
  by_cases hps : f.params = []
  · have hpc : paramClause f.params = [] := by simp [paramClause, hps]
    rw [hpc, List.nil_append]
    rw [show tryParamsAll (litBrk ++ (contentTrim f.content
        ++ ('\n' :: '#' :: ' ' :: (closeLitOf f.key ++ R)))) = [] by
      rw [show litBrk ++ (contentTrim f.content
          ++ ('\n' :: '#' :: ' ' :: (closeLitOf f.key ++ R)))
          = ']' :: (']' :: (contentTrim f.content
          ++ ('\n' :: '#' :: ' ' :: (closeLitOf f.key ++ R)))) from rfl]
      exact tryParamsAll_not_comma (by decide)]
    rw [dropLit_append]
    simp only [List.map_nil, List.nil_append, firstClose, hcs]
    simp [paramsOptOf, hps]
  · have hpc : paramClause f.params
        = ',' :: (' ' :: (strL "params" ++ ('=' :: reprParams f.params))) := by
      simp [paramClause, hps]
    rw [hpc]
    rw [show (',' :: (' ' :: (strL "params" ++ ('=' :: reprParams f.params))))
        ++ (litBrk ++ (contentTrim f.content
          ++ ('\n' :: '#' :: ' ' :: (closeLitOf f.key ++ R))))
        = ',' :: (' ' :: ((strL "params" ++ ('=' :: reprParams f.params))
        ++ (litBrk ++ (contentTrim f.content
          ++ ('\n' :: '#' :: ' ' :: (closeLitOf f.key ++ R)))))) by simp]
    have h1 : dropLit (strL "params")
        ((' ' :: ((strL "params" ++ ('=' :: reprParams f.params))
          ++ (litBrk ++ (contentTrim f.content
          ++ ('\n' :: '#' :: ' ' :: (closeLitOf f.key ++ R)))))).dropWhile pyIsSpace)
        = some ('=' :: (reprParams f.params ++ (litBrk ++ (contentTrim f.content
          ++ ('\n' :: '#' :: ' ' :: (closeLitOf f.key ++ R)))))) := rfl
    rw [tryParamsAll_eq_of_eq _ _ _ h1 rfl]
    rw [show reprParams f.params ++ (litBrk ++ (contentTrim f.content
        ++ ('\n' :: '#' :: ' ' :: (closeLitOf f.key ++ R))))
        = '\x7b' :: ((reprEntries f.params ++ ['\x7d'])
          ++ (litBrk ++ (contentTrim f.content
          ++ ('\n' :: '#' :: ' ' :: (closeLitOf f.key ++ R))))) from rfl,
      spacesThenLazyAll_nospace (by decide),
      show '\x7b' :: ((reprEntries f.params ++ ['\x7d'])
          ++ (litBrk ++ (contentTrim f.content
          ++ ('\n' :: '#' :: ' ' :: (closeLitOf f.key ++ R)))))
        = reprParams f.params ++ (litBrk ++ (contentTrim f.content
          ++ ('\n' :: '#' :: ' ' :: (closeLitOf f.key ++ R)))) from rfl]
    have hfail : ∀ t, t <:+ reprParams f.params → t ≠ [] → t ≠ reprParams f.params →
        dropLit litBrk (t ++ (litBrk ++ (contentTrim f.content
          ++ ('\n' :: '#' :: ' ' :: (closeLitOf f.key ++ R))))) = none := by
      intro t hts htn htp
      rw [dropLit_none_iff]
      intro hpre
      rcases pre_app hpre with h2 | ⟨u, hu, hus⟩
      · rw [containsSub_true_of h2 hts] at hpb
        simp at hpb
      · cases t with
        | nil => exact absurd rfl htn
        | cons x ts =>
          cases ts with
          | nil =>
            have hx1 : x = ']' := by
              have := congrArg List.head? hu
              rw [brk_chars] at this
              simpa using this.symm
            have hx2 := suffix_singleton_getLast hts
            rw [reprParams_getLast] at hx2
            injection hx2 with hx2'
            rw [← hx2'] at hx1
            exact absurd hx1 (by decide)
          | cons y ts2 =>
            have hlen := congrArg List.length hu
            rw [brk_chars] at hlen
            simp only [List.length_cons, List.length_append, List.length_nil] at hlen
            have hts2 : ts2 = [] := List.eq_nil_of_length_eq_zero (by omega)
            have hu0 : u = [] := List.eq_nil_of_length_eq_zero (by omega)
            subst hts2
            subst hu0
            have hpref : litBrk <+: x :: y :: ([] : Str) := by
              rw [show litBrk = x :: y :: ([] : Str) by rw [hu]; simp]
            rw [containsSub_true_of hpref hts] at hpb
            simp at hpb
    obtain ⟨L, hL⟩ := lazyUntil1All_head litBrk (reprParams f.params)
      (contentTrim f.content ++ ('\n' :: '#' :: ' ' :: (closeLitOf f.key ++ R)))
      (by simp [reprParams]) hfail
    rw [hL]
    rw [show dropLit litBrk (',' :: (' ' :: ((strL "params"
        ++ ('=' :: reprParams f.params)) ++ (litBrk ++ (contentTrim f.content
        ++ ('\n' :: '#' :: ' ' :: (closeLitOf f.key ++ R))))))) = none from rfl]
    simp only [List.map_cons, List.cons_append, firstClose, hcs]
    simp [paramsOptOf, hps]

theorem scanDoc_matchAt_some {s k : Str} {ps : Option Str} {ct r : Str}
    (hs : s ≠ []) (h : matchAt s = some (k, ps, ct, r)) :
    scanDoc s = (k, ps, ct) :: scanDoc r := by
  cases s with
  | nil => exact absurd rfl hs
  | cons c cs => exact scanDoc_cons_some h

theorem generateCmlContent_head (g : CMLField) (t : List CMLField) :
    (generateCmlContent (g :: t)).head? = some '#' := by
  cases t with
  | nil => simp [generateCmlContent, genCmlField]
  | cons h t' => simp [generateCmlContent, genCmlField]

theorem wfField_unpack {f : CMLField} (h : wfField f = true) :
    f.key ≠ [] ∧ f.key.all isWordDot = true ∧ endsNl f.content = true
    ∧ containsSub (closeLitOf f.key) (contentTrim f.content) = false
    ∧ f.params.all paramOk = true
    ∧ containsSub litBrk (reprParams f.params) = false := by
  simp only [wfField, keyOk, Bool.and_eq_true, Bool.not_eq_true'] at h
  obtain ⟨⟨⟨⟨⟨hk1, hk2⟩, h3⟩, h4⟩, h5⟩, h6⟩ := h
  exact ⟨by simpa [List.isEmpty_iff] using hk1, hk2, h3, h4, h5, h6⟩

theorem scanDoc_serialize (fs : List CMLField) (h : wfStore fs = true) :
    scanDoc (generateCmlContent fs)
      = fs.map (fun f => (f.key, paramsOptOf f, contentTrim f.content ++ ['\n'])) := by
  induction fs with
  | nil => rfl
  | cons f t ih =>
    have hf : wfField f = true := by
      simp only [wfStore, List.all_cons, Bool.and_eq_true] at h
      exact h.1
    have ht : wfStore t = true := by
      simp only [wfStore, List.all_cons, Bool.and_eq_true] at h
      exact h.2
    obtain ⟨h1, h2, -, h4, -, h6⟩ := wfField_unpack hf
    cases t with
    | nil =>
      have hm := matchAt_genCmlField f [] h1 h2 h4 h6
      rw [List.append_nil] at hm
      rw [show generateCmlContent [f] = genCmlField f from rfl,
        scanDoc_matchAt_some (by simp [genCmlField]) hm]
      rfl
    | cons g t' =>
      have hm := matchAt_genCmlField f ('\n' :: '\n' :: generateCmlContent (g :: t'))
        h1 h2 h4 h6
      rw [show generateCmlContent (f :: g :: t')
          = genCmlField f ++ ('\n' :: '\n' :: generateCmlContent (g :: t')) from rfl,
        scanDoc_matchAt_some (by simp [genCmlField]) hm]
      have hskip := scanDoc_skip (['\n', '\n']) (generateCmlContent (g :: t'))
        (by decide) (Or.inr (generateCmlContent_head g t'))
      rw [show ('\n' :: '\n' :: generateCmlContent (g :: t'))
          = ['\n', '\n'] ++ generateCmlContent (g :: t') from rfl, hskip, ih ht]
      simp

theorem dropWhile_nospace_head {s : Str} {x : Char} (hx : s.head? = some x)
    (h : pyIsSpace x = false) : s.dropWhile pyIsSpace = s := by
  cases s with
  | nil => rfl
  | cons c cs =>
    injection hx with hx'
    rw [List.dropWhile_cons, hx', h]
    simp

theorem parseQuoted_repr (v rest : Str)
    (hv : v.all (fun c => !(c == '\x27')) = true) :
    parseQuoted ('\x27' :: (v ++ ('\x27' :: rest))) = some (v, rest) := by
  have hsplit := takeWhile_append_stop (p := fun d => !(d == '\x27')) (a := v)
    (b := '\x27' :: rest) (List.all_eq_true.mp hv)
    (fun x hx => by injection hx with hx'; rw [← hx']; decide)
  unfold parseQuoted
  dsimp only
  rw [if_pos rfl, hsplit.2]
  dsimp only
  rw [if_pos rfl, hsplit.1]

theorem parseEntriesAux_cons_shape (fu : Nat) (k v REST : Str)
    (hk : k.all (fun c => !(c == '\x27')) = true)
    (hv : v.all (fun c => !(c == '\x27')) = true) :
    parseEntriesAux (fu + 1)
        ('\x27' :: (k ++ ('\x27' :: (':' :: (' ' :: ('\x27' :: (v ++ ('\x27' :: REST))))))))
      = (match REST.dropWhile pyIsSpace with
         | [] => none
         | d :: r4 =>
             if d = ',' then
               match parseEntriesAux fu (r4.dropWhile pyIsSpace) with
               | some pr => some ((k, v) :: pr.1, pr.2)
               | none => none
             else if d = '\x7d' then some ([(k, v)], r4)
             else none) := by
  conv_lhs => rw [parseEntriesAux]
  rw [parseQuoted_repr k _ hk]
  dsimp only
  rw [show ((':' :: (' ' :: ('\x27' :: (v ++ ('\x27' :: REST))))) : Str).dropWhile pyIsSpace
      = ':' :: (' ' :: ('\x27' :: (v ++ ('\x27' :: REST)))) from rfl]
  dsimp only
  rw [if_pos rfl]
  rw [show ((' ' :: ('\x27' :: (v ++ ('\x27' :: REST)))) : Str).dropWhile pyIsSpace
      = '\x27' :: (v ++ ('\x27' :: REST)) from rfl]
  rw [parseQuoted_repr v _ hv]

theorem paramOk_unpack {e : Str × Str} (h : paramOk e = true) :
    e.1.all (fun c => !(c == '\x27')) = true
    ∧ e.2.all (fun c => !(c == '\x27')) = true := by
  simpa [paramOk, Bool.and_eq_true] using h

theorem parseEntriesAux_repr (ps : List (Str × Str)) : ∀ (fu : Nat), ps ≠ [] →
    ps.all paramOk = true → ps.length ≤ fu →
    parseEntriesAux fu (reprEntries ps ++ ['\x7d']) = some (ps, []) := by
  induction ps with
  | nil => intro fu h; exact absurd rfl h
  | cons e ps' ih =>
    intro fu _ hall hfu
    cases fu with
    | zero => simp at hfu
    | succ fu' =>
      have hok : paramOk e = true := by
        simp only [List.all_cons, Bool.and_eq_true] at hall
        exact hall.1
      have hall' : ps'.all paramOk = true := by
        simp only [List.all_cons, Bool.and_eq_true] at hall
        exact hall.2
      obtain ⟨hk, hv⟩ := paramOk_unpack hok
      cases ps' with
      | nil =>
        have hdec : reprEntries [e] ++ ['\x7d']
            = '\x27' :: (e.1 ++ '\x27' :: ':' :: ' ' :: '\x27' :: (e.2 ++ '\x27' :: ['\x7d'])) := by
          simp [reprEntries, reprEntry, List.append_assoc]
        rw [hdec, parseEntriesAux_cons_shape fu' e.1 e.2 _ hk hv]
        rfl
      | cons e2 ps'' =>
        have hdec : reprEntries (e :: e2 :: ps'') ++ ['\x7d']
            = '\x27' :: (e.1 ++ '\x27' :: ':' :: ' ' :: '\x27' :: (e.2 ++ '\x27' :: ',' :: ' '
              :: (reprEntries (e2 :: ps'') ++ ['\x7d']))) := by
          rw [show reprEntries (e :: e2 :: ps'')
              = reprEntry e ++ ',' :: ' ' :: reprEntries (e2 :: ps'') from rfl]
          simp [reprEntry, List.append_assoc]
        rw [hdec, parseEntriesAux_cons_shape fu' e.1 e.2 _ hk hv]
        rw [show ((',' :: ' '
            :: (reprEntries (e2 :: ps'') ++ ['\x7d'])) : Str).dropWhile pyIsSpace
          = ',' :: ' ' :: (reprEntries (e2 :: ps'') ++ ['\x7d']) from rfl]
        dsimp only
        rw [if_pos rfl]
        have hhead : (reprEntries (e2 :: ps'') ++ ['\x7d']).head? = some '\x27' := by
          cases ps'' <;> simp [reprEntries, reprEntry]
        rw [show ((' ' :: (reprEntries (e2 :: ps'') ++ ['\x7d'])) : Str).dropWhile pyIsSpace
            = (reprEntries (e2 :: ps'') ++ ['\x7d']).dropWhile pyIsSpace from rfl]
        rw [dropWhile_nospace_head hhead (by decide)]
        rw [ih fu' (by simp) hall'
          (by simp only [List.length_cons] at hfu ⊢; omega)]

theorem reprEntries_len (ps : List (Str × Str)) : ps.length ≤ (reprEntries ps).length := by
  induction ps with
  | nil => simp
  | cons e ps' ih =>
    cases ps' with
    | nil => simp [reprEntries, reprEntry]
    | cons e2 ps'' =>
      rw [show reprEntries (e :: e2 :: ps'')
          = reprEntry e ++ ',' :: ' ' :: reprEntries (e2 :: ps'') from rfl]
      simp only [List.length_cons, List.length_append, reprEntry]
      simp at ih ⊢
      omega

theorem literalEval_reprParams (ps : List (Str × Str)) (h : ps.all paramOk = true) :
    literalEval (reprParams ps) = some ps := by
  cases ps with
  | nil => rfl
  | cons e ps' =>
    unfold literalEval
    rw [show (reprParams (e :: ps')).dropWhile pyIsSpace
        = '\x7b' :: (reprEntries (e :: ps') ++ ['\x7d']) from rfl]
    dsimp only
    rw [if_pos rfl]
    have hhead : (reprEntries (e :: ps') ++ ['\x7d']).head? = some '\x27' := by
      cases ps' <;> simp [reprEntries, reprEntry]
    rw [dropWhile_nospace_head hhead (by decide)]
    obtain ⟨X, hX⟩ : ∃ X, reprEntries (e :: ps') ++ ['\x7d'] = '\x27' :: X := by
      cases hl : reprEntries (e :: ps') ++ ['\x7d'] with
      | nil => rw [hl] at hhead; exact absurd hhead (by simp)
      | cons a as =>
          rw [hl] at hhead
          injection hhead with h1
          exact ⟨as, by rw [h1]⟩
    rw [hX]
    dsimp only
    rw [if_neg (by decide)]
    rw [← hX]
    have hlen : (e :: ps').length ≤ (reprEntries (e :: ps') ++ ['\x7d']).length := by
      have := reprEntries_len (e :: ps')
      simp only [List.length_append]
      simp at this ⊢
      omega
    rw [parseEntriesAux_repr (e :: ps') _ (by simp) h hlen]
    rfl

theorem contentTrim_restore {c : Str} (h : endsNl c = true) :
    contentTrim c ++ ['\n'] = c := by
  have h' : c.getLast? = some '\n' := by simpa [endsNl] using h
  have hne : c ≠ [] := by intro he; rw [he] at h'; simp at h'
  rw [contentTrim, if_pos h]
  have h3 : c.getLast hne = '\n' := by
    rw [List.getLast?_eq_getLast c hne] at h'
    injection h'
  rw [← h3]
  exact List.dropLast_append_getLast hne

theorem hasKey_append (A B : List CMLField) (k : Str) :
    hasKey (A ++ B) k = (hasKey A k || hasKey B k) := by
  induction A with
  | nil => simp [hasKey]
  | cons f t ih =>
    by_cases hf : f.key = k
    · simp [hasKey, hf]
    · simp [hasKey, hf, ih]

theorem procTriple_triple (A : List CMLField) (W : List Warn) (f : CMLField)
    (hp : f.params.all paramOk = true) (hnl : endsNl f.content = true)
    (hA : hasKey A f.key = false) :
    procTriple (A, W) (f.key, paramsOptOf f, contentTrim f.content ++ ['\n'])
      = (A ++ [f], W) := by
  obtain ⟨k, c, ps⟩ := f
  simp only at hp hnl hA
  unfold procTriple
  dsimp only
  rw [contentTrim_restore hnl]
  by_cases hps : ps = []
  · subst hps
    rw [show paramsOptOf ⟨k, c, []⟩ = none from rfl]
    dsimp only
    rw [insertDict_append (f := ⟨k, c, []⟩) hA]
    simp [hA]
  · have hpo : paramsOptOf ⟨k, c, ps⟩ = some (reprParams ps) := by
      simp [paramsOptOf, hps]
    rw [hpo]
    dsimp only
    rw [literalEval_reprParams ps hp]
    dsimp only
    rw [insertDict_append (f := ⟨k, c, ps⟩) hA]
    simp [hA]

theorem procTriple_none_new (A : List CMLField) (W : List Warn) (k c : Str)
    (hA : hasKey A k = false) :
    procTriple (A, W) (k, none, c) = (A ++ [⟨k, c, []⟩], W) := by
  unfold procTriple
  dsimp only
  rw [insertDict_append (f := ⟨k, c, []⟩) hA]
  simp [hA]

theorem procTriple_none_dup (A : List CMLField) (W : List Warn) (k c : Str)
    (hA : hasKey A k = true) :
    procTriple (A, W) (k, none, c)
      = (insertDict A ⟨k, c, []⟩, W ++ [Warn.duplicateKey k]) := by
  unfold procTriple
  dsimp only
  simp [hA]

theorem foldl_procTriple_serialize (fs : List CMLField) :
    ∀ (A : List CMLField) (W : List Warn), wfStore fs = true →
    (∀ f ∈ fs, hasKey A f.key = false) →
    (fs.map (fun f => f.key)).Nodup →
    (fs.map (fun f => (f.key, paramsOptOf f, contentTrim f.content ++ ['\n']))).foldl
        procTriple (A, W) = (A ++ fs, W) := by
  induction fs with
  | nil => intro A W _ _ _; simp
  | cons f t ih =>
    intro A W hwf hdis hnd
    have hf : wfField f = true := by
      simp only [wfStore, List.all_cons, Bool.and_eq_true] at hwf
      exact hwf.1
    have hwt : wfStore t = true := by
      simp only [wfStore, List.all_cons, Bool.and_eq_true] at hwf
      exact hwf.2
    obtain ⟨-, -, hnl, -, hp, -⟩ := wfField_unpack hf
    rw [List.map_cons, List.foldl_cons,
      procTriple_triple A W f hp hnl (hdis f (by simp))]
    rw [List.map_cons] at hnd
    have hnd' := List.nodup_cons.mp hnd
    have hdis' : ∀ g ∈ t, hasKey (A ++ [f]) g.key = false := by
      intro g hg
      rw [hasKey_append]
      simp only [Bool.or_eq_false_iff]
      refine ⟨hdis g (by simp [hg]), ?_⟩
      have hne : f.key ≠ g.key := by
        intro he
        exact hnd'.1 (he ▸ List.mem_map_of_mem _ hg)
      simp [hasKey, hne]
    rw [ih (A ++ [f]) W hwt hdis' (by simpa using hnd'.2)]
    simp

theorem insertDict_keys_sub {fs : List CMLField} {f : CMLField} {x : Str}
    (h : x ∈ (insertDict fs f).map (fun g => g.key)) :
    x = f.key ∨ x ∈ fs.map (fun g => g.key) := by
  induction fs with
  | nil => simpa [insertDict] using h
  | cons g t ih =>
    rw [insertDict] at h
    by_cases hk : g.key = f.key
    · rw [if_pos hk] at h
      simp only [List.map_cons, List.mem_cons] at h ⊢
      rcases h with h | h
      · exact Or.inl h
      · exact Or.inr (Or.inr h)
    · rw [if_neg hk] at h
      simp only [List.map_cons, List.mem_cons] at h ⊢
      rcases h with h | h
      · exact Or.inr (Or.inl h)
      · rcases ih h with h' | h'
        · exact Or.inl h'
        · exact Or.inr (Or.inr h')

theorem insertDict_keys_nodup {fs : List CMLField} {f : CMLField}
    (h : (fs.map (fun g => g.key)).Nodup) :
    ((insertDict fs f).map (fun g => g.key)).Nodup := by
  induction fs with
  | nil => simp [insertDict]
  | cons g t ih =>
    rw [insertDict]
    by_cases hk : g.key = f.key
    · rw [if_pos hk]
      simp only [List.map_cons, List.nodup_cons] at h ⊢
      exact ⟨by rw [← hk]; exact h.1, h.2⟩
    · rw [if_neg hk]
      simp only [List.map_cons, List.nodup_cons] at h ⊢
      refine ⟨?_, ih h.2⟩
      intro hmem
      rcases insertDict_keys_sub hmem with h' | h'
      · exact hk h'
      · exact h.1 h'

theorem foldl_procTriple_nodup (ts : List (Str × Option Str × Str)) :
    ∀ st : List CMLField × List Warn, (st.1.map (fun g => g.key)).Nodup →
    (((ts.foldl procTriple st).1).map (fun g => g.key)).Nodup := by
  induction ts with
  | nil => intro st h; simpa using h
  | cons t ts' ih =>
    intro st h
    rw [List.foldl_cons]
    exact ih _ (insertDict_keys_nodup h)

theorem parseContent_keys_nodup (d : Str) :
    ((parseContent d).1.map (fun g => g.key)).Nodup := by
  unfold parseContent
  exact foldl_procTriple_nodup (scanDoc d) ([], []) (by simp)

/-! ## Claims -/

/-- Claim C2 (corrected): upsert on a target that contains the opening tag.
The code locates the closing tag with an independent `find` from the start
of the text (not "after the opening tag"), and trims leading as well as
trailing newlines of the new content.  Under the decomposition hypotheses
— the first occurrence of the opening tag starts at `A.length` and the
first occurrence of the closing tag starts after the opening tag, at
`A.length + |open| + M.length` — the span from the start of the opening
tag through the end of the closing tag is replaced by the freshly
rendered block `renderBlock` and every byte of `A` (before) and `C`
(after) is preserved unchanged. -/
theorem claim_C2_amended (bt bc T A M C : Str)
    (hT : T = A ++ blockStartTag bt ++ M ++ blockEndTag bt ++ C)
    (h1 : findSub (blockStartTag bt) T = some A.length)
    (h2 : findSub (blockEndTag bt) T
      = some (A.length + (blockStartTag bt).length + M.length)) :
    addOrReplaceBlock T bt bc = A ++ renderBlock bt bc ++ C :=
  addOrReplace_span bt bc T A M C hT h1 h2

set_option maxRecDepth 20000 in
/-- Claim C2 (counterexample): on a target whose first closing-tag
occurrence lies *before* the opening tag (while another closing tag does
follow the opening tag), the claimed behaviour — replace from the first
opening tag through the first closing tag after it, with only trailing
newlines of the content trimmed — does not hold: the code splices at the
closing tag found from the start of the text and strips the content's
leading newline as well. -/
theorem claim_C2_counterexample :
    addOrReplaceBlock
        (strL "# [[/cc.block.k]]\nX\n# [[cc.block.k]]\nold\n# [[/cc.block.k]]\nZ")
        (strL "k") (strL "\nnew\n")
      ≠ strL "# [[/cc.block.k]]\nX\n"
          ++ (strL "# [[cc.block.k]]\n\nnew\n# [[/cc.block.k]]") ++ strL "\nZ" := by
  decide

set_option maxRecDepth 20000 in
/-- Claim C2 (witness): the amended theorem applied to a concrete target
in which the first closing tag does follow the first opening tag. -/
theorem claim_C2_witness :
    addOrReplaceBlock (strL "pre\n# [[cc.block.k]]\nold\n# [[/cc.block.k]]\nkeep")
        (strL "k") (strL "\nnew\n")
      = strL "pre\n# [[cc.block.k]]\nnew\n# [[/cc.block.k]]\nkeep" := by
  have h := claim_C2_amended (strL "k") (strL "\nnew\n")
    (strL "pre\n# [[cc.block.k]]\nold\n# [[/cc.block.k]]\nkeep")
    (strL "pre\n") (strL "\nold\n") (strL "\nkeep")
    (by decide) (by decide) (by decide)
  exact h.trans (by decide)

/-- Claim C3 (corrected): the Patch Engine classifies a patch Region as a
removal exactly when the string `remove` occurs *as a substring anywhere
in the key* (`'remove' in block_type`), not when the leading segment is
the `remove` marker; for a removal, the target key is the key with
*every* occurrence of `remove.` deleted (`str.replace`), not just a
leading marker segment.  When the key contains no `remove`, the single
operation is the upsert; when it does, the operation deletes the span of
the stripped key's fenced block (under the same first-occurrence
decomposition hypotheses as the remove contract). -/
theorem claim_C3_amended (bt bc : Str) :
    (∀ T, containsSub (strL "remove") bt = false →
        processPatch T [(bt, bc)] = addOrReplaceBlock T bt bc)
    ∧ (∀ T A M C, containsSub (strL "remove") bt = true →
        T = A ++ blockStartTag (replaceAll bt (strL "remove.") []) ++ M
              ++ blockEndTag (replaceAll bt (strL "remove.") []) ++ C →
        findSub (blockStartTag (replaceAll bt (strL "remove.") [])) T = some A.length →
        findSub (blockEndTag (replaceAll bt (strL "remove.") [])) T
          = some (A.length + (blockStartTag (replaceAll bt (strL "remove.") [])).length
              + M.length) →
        processPatch T [(bt, bc)] = A ++ C) := by
  constructor
  · intro T h
    simp [processPatch, processOne, h]
  · intro T A M C h hT h1 h2
    have : processPatch T [(bt, bc)]
        = removeBlock T (replaceAll bt (strL "remove.") []) := by
      simp [processPatch, processOne, h]
    exact this.trans (removeBlock_span _ _ _ _ _ hT h1 h2)

set_option maxRecDepth 20000 in
/-- Claim C3 (counterexample): the key `a.remove` — whose *leading*
segment is `a`, not the reserved marker — is nevertheless classified as a
removal by the code (`'remove' in 'a.remove'`), so the patch deletes the
target block instead of upserting it as the claim requires. -/
theorem claim_C3_counterexample :
    processPatch (strL "# [[cc.block.a.remove]]\nbody\n# [[/cc.block.a.remove]]\nkeep")
        [(strL "a.remove", strL "new")]
      = strL "\nkeep"
    ∧ processPatch (strL "# [[cc.block.a.remove]]\nbody\n# [[/cc.block.a.remove]]\nkeep")
        [(strL "a.remove", strL "new")]
      ≠ strL "# [[cc.block.a.remove]]\nnew\n# [[/cc.block.a.remove]]\nkeep" := by
  constructor
  · decide
  · decide

set_option maxRecDepth 20000 in
/-- Claim C3 (witness): both branches of the amended theorem at concrete
inputs — a `remove`-free key is upserted, a `remove.`-prefixed key
removes the stripped key's block. -/
theorem claim_C3_witness :
    processPatch (strL "x\n") [(strL "k", strL "new")]
      = addOrReplaceBlock (strL "x\n") (strL "k") (strL "new")
    ∧ processPatch (strL "pre\n# [[cc.block.k]]\nbody\n# [[/cc.block.k]]\nkeep")
        [(strL "remove.k", strL "")]
      = strL "pre\n" ++ strL "\nkeep" := by
  constructor
  · exact (claim_C3_amended (strL "k") (strL "new")).1 (strL "x\n") (by decide)
  · exact (claim_C3_amended (strL "remove.k") (strL "")).2
      (strL "pre\n# [[cc.block.k]]\nbody\n# [[/cc.block.k]]\nkeep")
      (strL "pre\n") (strL "\nbody\n") (strL "\nkeep")
      (by decide) (by decide) (by decide) (by decide)

/-- Claim C4 (corrected): `rename(oldKey, newKey)` with `oldKey` present
does *not* keep the Region at its insertion-order position: the code
`pop`s the entry and re-assigns it under `newKey`, and a Python dict
assignment of a fresh key appends at the *end* of the insertion order.
When `newKey` is not already present, the renamed Region ends up last,
after all remaining Regions. -/
theorem claim_C4_amended (fs : List CMLField) (oldKey newKey : Str) (f : CMLField)
    (h1 : lookupField fs oldKey = some f) (h2 : hasKey fs newKey = false) :
    changeFieldName fs oldKey newKey
      = (eraseKey fs oldKey ++ [⟨newKey, f.content, f.params⟩], []) := by
  simp only [changeFieldName, h1]
  rw [insertDict_append (hasKey_eraseKey_false h2)]

/-- Claim C4 (counterexample): renaming the first of two Regions moves it
to the end of the store, so a subsequent serialization emits it second,
not first as the claim requires. -/
theorem claim_C4_counterexample :
    (changeFieldName [⟨strL "a", strL "x\n", []⟩, ⟨strL "b", strL "y\n", []⟩]
        (strL "a") (strL "c")).1
      = [⟨strL "b", strL "y\n", []⟩, ⟨strL "c", strL "x\n", []⟩]
    ∧ (changeFieldName [⟨strL "a", strL "x\n", []⟩, ⟨strL "b", strL "y\n", []⟩]
        (strL "a") (strL "c")).1
      ≠ [⟨strL "c", strL "x\n", []⟩, ⟨strL "b", strL "y\n", []⟩]
    ∧ generateCmlContent (changeFieldName [⟨strL "a", strL "x\n", []⟩,
          ⟨strL "b", strL "y\n", []⟩] (strL "a") (strL "c")).1
      ≠ generateCmlContent [⟨strL "c", strL "x\n", []⟩, ⟨strL "b", strL "y\n", []⟩] := by
  refine ⟨by decide, by decide, by decide⟩

/-- Claim C4 (witness): the amended theorem at a concrete two-Region
store. -/
theorem claim_C4_witness :
    changeFieldName [⟨strL "a", strL "x\n", []⟩, ⟨strL "b", strL "y\n", []⟩]
        (strL "a") (strL "c")
      = ([⟨strL "b", strL "y\n", []⟩, ⟨strL "c", strL "x\n", []⟩], []) := by
  have h := claim_C4_amended
    [⟨strL "a", strL "x\n", []⟩, ⟨strL "b", strL "y\n", []⟩]
    (strL "a") (strL "c") ⟨strL "a", strL "x\n", []⟩ (by decide) (by decide)
  exact h.trans (by decide)

/-- Claim C6 (confirmed): every mutating Field Store operation whose key
precondition fails leaves the store untouched and reports the condition
on the warning channel only (all the operations are total functions —
nothing is raised): `setParam`, `rename`, `replaceContent` and `delete`
addressed at an absent key, and `add` addressed at a present key (`add`
never overwrites). -/
theorem claim_C6_atomicity (fs : List CMLField) (k n v c : Str)
    (ps : List (Str × Str)) :
    (hasKey fs k = false →
      setParamValue fs k n v = (fs, [Warn.fieldNotFound k])
      ∧ (∀ nk, changeFieldName fs k nk = (fs, [Warn.fieldNotFound k]))
      ∧ replaceFieldContent fs k c = (fs, [Warn.fieldNotFound k])
      ∧ deleteField fs k = (fs, [Warn.fieldNotFound k]))
    ∧ (hasKey fs k = true → addField fs k c ps = (fs, [Warn.fieldExists k])) := by
  constructor
  · intro h
    have hl := lookupField_eq_none h
    exact ⟨by simp [setParamValue, hl], fun nk => by simp [changeFieldName, hl],
      by simp [replaceFieldContent, hl], by simp [deleteField, h]⟩
  · intro h
    simp [addField, h]

/-- Claim C6 (witness): the theorem applied at a concrete store, for an
absent key (all four missing-key operations) and a present key (`add`). -/
theorem claim_C6_witness :
    setParamValue [⟨strL "a", strL "x", []⟩] (strL "b") (strL "n") (strL "v")
      = ([⟨strL "a", strL "x", []⟩], [Warn.fieldNotFound (strL "b")])
    ∧ deleteField [⟨strL "a", strL "x", []⟩] (strL "b")
      = ([⟨strL "a", strL "x", []⟩], [Warn.fieldNotFound (strL "b")])
    ∧ addField [⟨strL "a", strL "x", []⟩] (strL "a") (strL "c") []
      = ([⟨strL "a", strL "x", []⟩], [Warn.fieldExists (strL "a")]) := by
  have h1 := (claim_C6_atomicity [⟨strL "a", strL "x", []⟩] (strL "b") (strL "n")
    (strL "v") (strL "c") []).1 (by decide)
  have h2 := (claim_C6_atomicity [⟨strL "a", strL "x", []⟩] (strL "a") (strL "n")
    (strL "v") (strL "c") []).2 (by decide)
  exact ⟨h1.1, h1.2.2.2, h2⟩

/-- Claim C7 (confirmed): upsert on a target that does not contain the
fenced opening tag appends the freshly rendered block at the end, with a
single separating newline exactly when the target is non-empty and does
not already end in a newline. -/
theorem claim_C7_append (bt bc T : Str)
    (h : findSub (blockStartTag bt) T = none) :
    (T = [] → addOrReplaceBlock T bt bc = renderBlock bt bc)
    ∧ (endsNl T = true → addOrReplaceBlock T bt bc = T ++ renderBlock bt bc)
    ∧ (T ≠ [] → endsNl T = false →
        addOrReplaceBlock T bt bc = T ++ '\n' :: renderBlock bt bc) := by
  rw [addOrReplace_append bt bc T h]
  refine ⟨fun hT => ?_, fun hE => ?_, fun hT hE => ?_⟩
  · subst hT
    simp
  · simp [hE]
  · simp [hT, hE]

set_option maxRecDepth 20000 in
/-- Claim C7 (witness): the theorem applied to each of the three concrete
target shapes (empty, ending in a newline, non-empty without a trailing
newline). -/
theorem claim_C7_witness :
    addOrReplaceBlock [] (strL "k") (strL "c")
      = renderBlock (strL "k") (strL "c")
    ∧ addOrReplaceBlock (strL "x\n") (strL "k") (strL "c")
      = strL "x\n" ++ renderBlock (strL "k") (strL "c")
    ∧ addOrReplaceBlock (strL "x") (strL "k") (strL "c")
      = strL "x" ++ '\n' :: renderBlock (strL "k") (strL "c") := by
  refine ⟨(claim_C7_append (strL "k") (strL "c") [] (by decide)).1 rfl,
    (claim_C7_append (strL "k") (strL "c") (strL "x\n") (by decide)).2.1 (by decide),
    (claim_C7_append (strL "k") (strL "c") (strL "x") (by decide)).2.2
      (by decide) (by decide)⟩

set_option maxRecDepth 20000 in
/-- Claim C8 (counterexample): on a target containing both fenced tags
for `k` but whose first closing-tag occurrence lies *before* the first
opening tag, the claimed behaviour — delete the span from the first
opening tag through the end of the first closing tag after it and change
no other byte — does not hold: the code locates the closing tag with an
independent find from the start of the text, so it splices at the
earlier closing occurrence and *duplicates* the bytes between the end of
that closing tag and the start of the opening tag instead of deleting
anything. -/
theorem claim_C8_counterexample :
    removeBlock
        (strL "# [[/cc.block.k]]\nX\n# [[cc.block.k]]\nbody\n# [[/cc.block.k]]\nkeep")
        (strL "k")
      ≠ strL "# [[/cc.block.k]]\nX\n" ++ strL "\nkeep"
    ∧ removeBlock
        (strL "# [[/cc.block.k]]\nX\n# [[cc.block.k]]\nbody\n# [[/cc.block.k]]\nkeep")
        (strL "k")
      = strL "# [[/cc.block.k]]\nX\n"
          ++ strL "\nX\n# [[cc.block.k]]\nbody\n# [[/cc.block.k]]\nkeep" := by
  refine ⟨by decide, by decide⟩

/-- Claim C8 (amended): `Remove(k)` locates the opening tag and the
closing tag by two independent finds from the START of the target, with
no check that the closing occurrence follows the opening one. When the
first closing-tag occurrence does begin after the end of the first
opening-tag occurrence, the span from the start of the opening tag
through the end of that closing tag is deleted and every other byte is
preserved; when either tag is absent, the operation is a no-op and the
output is byte-identical to the target (removal of something absent is
not an error). -/
theorem claim_C8_amended (bt : Str) :
    (∀ T A M C, T = A ++ blockStartTag bt ++ M ++ blockEndTag bt ++ C →
        findSub (blockStartTag bt) T = some A.length →
        findSub (blockEndTag bt) T
          = some (A.length + (blockStartTag bt).length + M.length) →
        removeBlock T bt = A ++ C)
    ∧ (∀ T, findSub (blockStartTag bt) T = none → removeBlock T bt = T)
    ∧ (∀ T, findSub (blockEndTag bt) T = none → removeBlock T bt = T) := by
  refine ⟨fun T A M C hT h1 h2 => removeBlock_span bt T A M C hT h1 h2,
    fun T h => ?_, fun T h => ?_⟩
  · cases hbe : findSub (blockEndTag bt) T <;> simp [removeBlock, h, hbe]
  · cases hbs : findSub (blockStartTag bt) T <;> simp [removeBlock, h, hbs]

/-- Claim C9 (confirmed): the indentation normalizer is line-local. Its
output, split back into lines, is exactly the line-wise image of the
input: each line that matches the tag-line pattern (after stripping only
leading whitespace: an opening or closing tag, optionally preceded by the
line-comment marker) is emitted with its leading whitespace removed, and
every other line is emitted byte-identically; the line count is
preserved, the lines are re-joined with the same separator, and the
transform is a total function (it can produce no error). -/
theorem claim_C9_normalizer (t : Str) :
    splitNl (removeCmlIndentation t)
      = (splitNl t).map (fun l => if cmlLineMatch l then l.dropWhile pyIsSpace else l)
    ∧ (splitNl (removeCmlIndentation t)).length = (splitNl t).length := by
  have hmem : ∀ l ∈ (splitNl t).map
      (fun l => if cmlLineMatch l then l.dropWhile pyIsSpace else l), '\n' ∉ l := by
    intro l hl
    rcases List.mem_map.mp hl with ⟨x, hx, rfl⟩
    by_cases hc : cmlLineMatch x
    · simp only [hc, if_true]
      intro hmem
      exact splitNl_noNl t x hx ((List.dropWhile_suffix pyIsSpace).sublist.subset hmem)
    · simpa [hc] using splitNl_noNl t x hx
  have hne : (splitNl t).map
      (fun l => if cmlLineMatch l then l.dropWhile pyIsSpace else l) ≠ [] := by
    intro hmap
    exact splitNl_ne_nil t (List.map_eq_nil_iff.mp hmap)
  have h1 : splitNl (removeCmlIndentation t)
      = (splitNl t).map (fun l => if cmlLineMatch l then l.dropWhile pyIsSpace else l) := by
    rw [removeCmlIndentation, splitNl_joinNl _ hmem hne]
  exact ⟨h1, by rw [h1, List.length_map]⟩

/-- Claim C10 (confirmed): output-envelope extraction trims.  For a
document decomposed around an output-envelope block for `name` (fence-free
filler before the block and fence-free inner text), the extracted value
is the inner substring with surrounding whitespace stripped — not the raw
substring; consequently two documents whose inner substrings differ only
in surrounding whitespace yield identical extracted values; and the
envelope parser returns a required key whose block is present even when
its trimmed content is empty (only absence is an error).  (The block name
is spliced into the pattern unescaped, so the contract is stated for the
regex-neutral word-character names the program actually passes.) -/
theorem claim_C10_envelope_trim :
    (∀ name pre I post, name.all isWordChar = true →
      containsSub (strL "[[") pre = false →
      containsSub (strL "[[") I = false →
      parseBlock name (pre ++ outOpen name ++ I ++ outClose name ++ post)
        = some (pyStrip I))
    ∧ (∀ name pre I w1 w2 post, name.all isWordChar = true →
      containsSub (strL "[[") pre = false →
      containsSub (strL "[[") (w1 ++ I ++ w2) = false →
      (∀ a ∈ w1, pyIsSpace a = true) → (∀ a ∈ w2, pyIsSpace a = true) →
      parseBlock name (pre ++ outOpen name ++ (w1 ++ I ++ w2) ++ outClose name ++ post)
        = some (pyStrip I))
    ∧ (∀ raw f m c, parseBlock (strL "filename") raw = some f →
      parseBlock (strL "mode") raw = some m →
      parseBlock (strL "code") raw = some c →
      parseRawContent raw = some ⟨f, m, c, parseBlock (strL "explanation") raw⟩) := by
  refine ⟨fun name pre I post _ hpre hI => parseBlock_exact name pre I post hpre hI,
    fun name pre I w1 w2 post _ hpre hI hw1 hw2 => ?_, fun raw f m c h1 h2 h3 => ?_⟩
  · rw [parseBlock_exact name pre (w1 ++ I ++ w2) post hpre hI,
      pyStrip_sandwich hw1 hw2]
  · simp [parseRawContent, h1, h2, h3]

set_option maxRecDepth 100000 in
/-- Claim C10 (witness): the theorem applied at concrete documents — a
`code` block whose inner text carries surrounding whitespace (extracted
trimmed), the same inner text with extra whitespace padding (identical
extract), and a full envelope whose required `code` block is present but
blank (still returned, with empty content). -/
theorem claim_C10_witness :
    parseBlock (strL "code") (strL "x\n[[cc.out.code]]\n  y = 1\n[[/cc.out.code]]z")
      = some (strL "y = 1")
    ∧ parseBlock (strL "code") (strL "x\n[[cc.out.code]]  \n  y = 1\n \t[[/cc.out.code]]z")
      = some (strL "y = 1")
    ∧ parseRawContent (strL "[[cc.out.filename]]f[[/cc.out.filename]][[cc.out.mode]]FULL[[/cc.out.mode]][[cc.out.code]]   [[/cc.out.code]]")
      = some ⟨strL "f", strL "FULL", [], none⟩ := by
  refine ⟨?_, ?_, ?_⟩
  · exact (claim_C10_envelope_trim.1 (strL "code") (strL "x\n") (strL "\n  y = 1\n")
      (strL "z") (by decide) (by decide) (by decide)).trans (by decide)
  · exact (claim_C10_envelope_trim.2.1 (strL "code") (strL "x\n") (strL "\n  y = 1\n")
      (strL "  ") (strL " \t") (strL "z") (by decide) (by decide) (by decide)
      (by decide) (by decide)).trans (by decide)
  · exact (claim_C10_envelope_trim.2.2
      (strL "[[cc.out.filename]]f[[/cc.out.filename]][[cc.out.mode]]FULL[[/cc.out.mode]][[cc.out.code]]   [[/cc.out.code]]")
      (strL "f") (strL "FULL") [] (by decide) (by decide) (by decide)).trans (by decide)

set_option maxRecDepth 20000 in
/-- Claim C8 (witness): the amended theorem applied at concrete targets —
one containing the block with the closing tag after the opening tag
(span deleted), one without the closing tag (no-op), one without any tag
(no-op). -/
theorem claim_C8_witness :
    removeBlock (strL "pre\n# [[cc.block.k]]\nbody\n# [[/cc.block.k]]\nkeep") (strL "k")
      = strL "pre\n" ++ strL "\nkeep"
    ∧ removeBlock (strL "pre\n# [[cc.block.k]]\nbody\n") (strL "k")
      = strL "pre\n# [[cc.block.k]]\nbody\n"
    ∧ removeBlock (strL "plain text") (strL "k") = strL "plain text" := by
  refine ⟨(claim_C8_amended (strL "k")).1
      (strL "pre\n# [[cc.block.k]]\nbody\n# [[/cc.block.k]]\nkeep")
      (strL "pre\n") (strL "\nbody\n") (strL "\nkeep")
      (by decide) (by decide) (by decide),
    (claim_C8_amended (strL "k")).2.2 (strL "pre\n# [[cc.block.k]]\nbody\n") (by decide),
    (claim_C8_amended (strL "k")).2.1 (strL "plain text") (by decide)⟩

/-- Claim C1: round-trip — for every document `d` whose extracted Field
Store is well formed (valid keys, newline-terminated content with no
embedded fence-like substring, plain params), re-extracting the
serialization of that store yields exactly the same ordered store (same
keys, contents and params) and no warnings: `generate_cml_field` strips
one trailing newline from the stored content and re-appends it before
the closing tag, so the Region-level fixed point holds. -/
theorem claim_C1_roundtrip (d : Str) (h : wfStore (parseContent d).1 = true) :
    parseContent (generateCmlContent (parseContent d).1) = ((parseContent d).1, []) := by
  have hser := scanDoc_serialize (parseContent d).1 h
  have hfold := foldl_procTriple_serialize (parseContent d).1 [] [] h
    (by intro f _; rfl) (parseContent_keys_nodup d)
  calc parseContent (generateCmlContent (parseContent d).1)
      = (scanDoc (generateCmlContent (parseContent d).1)).foldl procTriple ([], []) := rfl
    _ = ((parseContent d).1.map
          (fun f => (f.key, paramsOptOf f, contentTrim f.content ++ ['\n']))).foldl
          procTriple ([], []) := by rw [hser]
    _ = ([] ++ (parseContent d).1, []) := hfold
    _ = ((parseContent d).1, []) := by simp

set_option maxRecDepth 40000 in
/-- Claim C1 (witness): the theorem applied to a concrete one-field
document. -/
theorem claim_C1_witness :
    wfStore (parseContent (strL "# [[cc.a]]\nx\n# [[/cc.a]]")).1 = true
    ∧ parseContent (generateCmlContent (parseContent (strL "# [[cc.a]]\nx\n# [[/cc.a]]")).1)
      = ((parseContent (strL "# [[cc.a]]\nx\n# [[/cc.a]]")).1, []) :=
  ⟨by decide, claim_C1_roundtrip (strL "# [[cc.a]]\nx\n# [[/cc.a]]") (by decide)⟩

/-- Claim C5: duplicate keys — in a document where key `k` appears in two
well-formed fields with different contents `c1` and then `c2` (separated
by inert text containing no `[[`), one extraction pass yields exactly one
Region for `k`, holding the second occurrence's content `c2`, together
with a single duplicate-key warning; the parse still succeeds (the
condition is non-fatal). -/
theorem claim_C5_duplicate (P M S k c1 c2 : Str)
    (hw1 : wfField ⟨k, c1, []⟩ = true) (hw2 : wfField ⟨k, c2, []⟩ = true)
    (_hne : c1 ≠ c2)
    (hP : containsSub (strL "[[") P = false)
    (hM : containsSub (strL "[[") M = false)
    (hS : containsSub (strL "[[") S = false) :
    parseContent (P ++ (genCmlField ⟨k, c1, []⟩
        ++ (M ++ (genCmlField ⟨k, c2, []⟩ ++ S))))
      = ([⟨k, c2, []⟩], [Warn.duplicateKey k]) := by
  obtain ⟨hk1, hk2, hnl1, hcc1, -, -⟩ := wfField_unpack hw1
  obtain ⟨-, -, hnl2, hcc2, -, -⟩ := wfField_unpack hw2
  have hm2 := matchAt_genCmlField ⟨k, c2, []⟩ S hk1 hk2 hcc2
    (by show containsSub litBrk (reprParams []) = false; decide)
  have hm1 := matchAt_genCmlField ⟨k, c1, []⟩
    (M ++ (genCmlField ⟨k, c2, []⟩ ++ S)) hk1 hk2 hcc1
    (by show containsSub litBrk (reprParams []) = false; decide)
  have hscan : scanDoc (P ++ (genCmlField ⟨k, c1, []⟩
      ++ (M ++ (genCmlField ⟨k, c2, []⟩ ++ S))))
      = [(k, none, contentTrim c1 ++ ['\n']), (k, none, contentTrim c2 ++ ['\n'])] := by
    rw [scanDoc_skip P _ hP (Or.inr (by simp [genCmlField]))]
    rw [scanDoc_matchAt_some (by simp [genCmlField]) hm1]
    rw [scanDoc_skip M _ hM (Or.inr (by simp [genCmlField]))]
    rw [scanDoc_matchAt_some (by simp [genCmlField]) hm2]
    rw [scanDoc_inert S hS]
    rfl
  have h1 : procTriple ([], []) (k, none, contentTrim c1 ++ ['\n'])
      = ([⟨k, c1, []⟩], []) := by
    rw [contentTrim_restore hnl1, procTriple_none_new [] [] k c1 rfl]
    rfl
  have h2 : procTriple ([⟨k, c1, []⟩], []) (k, none, contentTrim c2 ++ ['\n'])
      = ([⟨k, c2, []⟩], [Warn.duplicateKey k]) := by
    rw [contentTrim_restore hnl2,
      procTriple_none_dup [⟨k, c1, []⟩] [] k c2 (by simp [hasKey])]
    rw [show insertDict [⟨k, c1, []⟩] ⟨k, c2, []⟩ = [⟨k, c2, []⟩] from by
      simp [insertDict]]
    rfl
  unfold parseContent
  rw [hscan, List.foldl_cons, h1, List.foldl_cons, h2, List.foldl_nil]

set_option maxRecDepth 40000 in
/-- Claim C5 (witness): the theorem applied to a concrete document with
key `a` twice. -/
theorem claim_C5_witness :
    wfField ⟨strL "a", strL "\nx\n", []⟩ = true
    ∧ parseContent ([] ++ (genCmlField ⟨strL "a", strL "\nx\n", []⟩
        ++ ((strL "\n\n") ++ (genCmlField ⟨strL "a", strL "\ny\n", []⟩ ++ ([] : Str)))))
      = ([⟨strL "a", strL "\ny\n", []⟩], [Warn.duplicateKey (strL "a")]) :=
  ⟨by decide, claim_C5_duplicate [] (strL "\n\n") [] (strL "a") (strL "\nx\n") (strL "\ny\n")
    (by decide) (by decide) (by decide) (by decide) (by decide) (by decide)⟩

end Cml
